import Mathlib

/-!
Verification of the document-to-structured-data extraction pipeline of the
Bank-statement OCR repository (`src/services/geminiService.ts`).

The development shallowly embeds the pipeline's pure logic:

* a model of `JSON.parse` on `List Char` (recursive-descent parser for the
  JSON grammar, fuel-indexed for the nested array/object cases),
* the markdown-fence extraction regex used by `cleanAndParseJson`,
* `cleanAndParseJson` itself (the `decode` operation of the spec),
* the rendering / batching pipeline (`fileToGenerativePart`,
  `processStatementFiles`) over an abstract environment describing each
  file's behaviour, with an explicit event trace,
* the pdf.js loader state machine (`getPdfJs`) with its module-level
  promise cache.
-/

namespace BankOCR

/-! ## Characters and whitespace -/

/-- The backtick character U+0060 (written via its code point throughout). -/
def btChar : Char := Char.ofNat 96

/-- Whitespace accepted by `JSON.parse` between JSON tokens:
space (32), horizontal tab (9), line feed (10), carriage return (13). -/
def isJsonWs (c : Char) : Bool :=
  c.toNat = 32 || c.toNat = 9 || c.toNat = 10 || c.toNat = 13

/-- Whitespace removed by JavaScript `String.prototype.trim`
(ECMAScript WhiteSpace ∪ LineTerminator: tab, LF, VT, FF, CR, space,
NBSP, BOM, the Unicode space separators, and the line/paragraph
separators).  A strict superset of `isJsonWs`. -/
def isJsWs (c : Char) : Bool :=
  c.toNat = 32 || c.toNat = 9 || c.toNat = 10 || c.toNat = 13 ||
  c.toNat = 0x0B || c.toNat = 0x0C ||
  c.toNat = 0xA0 || c.toNat = 0xFEFF ||
  c.toNat = 0x1680 || (0x2000 ≤ c.toNat && c.toNat ≤ 0x200A) ||
  c.toNat = 0x2028 || c.toNat = 0x2029 ||
  c.toNat = 0x202F || c.toNat = 0x205F || c.toNat = 0x3000

/-- Drop `p`-satisfying characters from the end of a list. -/
def dropTrail (p : Char → Bool) (cs : List Char) : List Char :=
  (cs.reverse.dropWhile p).reverse

/-- Model of JavaScript `String.prototype.trim`. -/
def jsTrim (cs : List Char) : List Char :=
  dropTrail isJsWs (cs.dropWhile isJsWs)

/-! ## JSON values

Numbers and strings keep their raw source lexeme: no claim in this
development depends on the numeric value of a number or on the unescaped
content of a string, only on parse success/failure and on records passing
through the decoder verbatim. -/

/-- A parsed JSON value.  `num` and `str` store the raw source lexeme
(for `str`, the characters between the quotes, escape sequences left
as written). -/
inductive Json where
  | null
  | bool (b : Bool)
  | num (lexeme : List Char)
  | str (lexeme : List Char)
  | arr (elems : List Json)
  | obj (members : List (List Char × Json))

/-! ## Recursive-descent JSON parser (model of `JSON.parse`) -/

/-- Skip JSON inter-token whitespace. -/
def skipWsL (cs : List Char) : List Char := cs.dropWhile isJsonWs

/-- Hexadecimal digit (for `\u` escapes). -/
def isHexDigit (c : Char) : Bool :=
  c.isDigit || ('a' ≤ c && c ≤ 'f') || ('A' ≤ c && c ≤ 'F')

/-- Characters that can start a JSON value. -/
def isValueStart (c : Char) : Bool :=
  c = '{' || c = '[' || c = '"' || c = '-' || c.isDigit ||
  c = 't' || c = 'f' || c = 'n'

/-- Parse the body of a JSON string after the opening quote.  Returns the
raw body (escapes unexpanded) and the input after the closing quote.
Unescaped control characters (code points `< 0x20`, including a literal
line feed) are rejected, as `JSON.parse` rejects them. -/
def parseStr : List Char → Option (List Char × List Char)
  | [] => none
  | c :: cs =>
    if c = '"' then some ([], cs)
    else if c = '\\' then
      match cs with
      | [] => none
      | e :: cs' =>
        if e = 'u' then
          match cs' with
          | h1 :: h2 :: h3 :: h4 :: cs'' =>
            if isHexDigit h1 && isHexDigit h2 && isHexDigit h3 && isHexDigit h4 then
              match parseStr cs'' with
              | some (body, rest) => some (c :: e :: h1 :: h2 :: h3 :: h4 :: body, rest)
              | none => none
            else none
          | _ => none
        else if e = '"' || e = '\\' || e = '/' || e = 'b' || e = 'f' ||
                e = 'n' || e = 'r' || e = 't' then
          match parseStr cs' with
          | some (body, rest) => some (c :: e :: body, rest)
          | none => none
        else none
    else if c.toNat < 0x20 then none
    else
      match parseStr cs with
      | some (body, rest) => some (c :: body, rest)
      | none => none

/-- Parse the integer part of a JSON number (after the optional sign):
`0` or a nonzero digit followed by digits. -/
def parseIntPart : List Char → Option (List Char × List Char)
  | [] => none
  | c :: cs =>
    if c = '0' then some ([c], cs)
    else if c.isDigit then
      some (c :: cs.takeWhile Char.isDigit, cs.dropWhile Char.isDigit)
    else none

/-- Parse the optional fraction part of a JSON number: `.` then one or
more digits, or nothing. -/
def parseFracPart : List Char → Option (List Char × List Char)
  | [] => some ([], [])
  | c :: cs =>
    if c = '.' then
      match cs with
      | d :: _ =>
        if d.isDigit then
          some (c :: cs.takeWhile Char.isDigit, cs.dropWhile Char.isDigit)
        else none
      | [] => none
    else some ([], c :: cs)

/-- Parse the optional exponent part of a JSON number: `e`/`E`, optional
sign, one or more digits, or nothing. -/
def parseExpPart : List Char → Option (List Char × List Char)
  | [] => some ([], [])
  | c :: cs =>
    if c = 'e' || c = 'E' then
      match cs with
      | s :: cs' =>
        if s = '+' || s = '-' then
          match cs' with
          | d :: _ =>
            if d.isDigit then
              some (c :: s :: cs'.takeWhile Char.isDigit, cs'.dropWhile Char.isDigit)
            else none
          | [] => none
        else if s.isDigit then
          some (c :: cs.takeWhile Char.isDigit, cs.dropWhile Char.isDigit)
        else none
      | [] => none
    else some ([], c :: cs)

/-- The integer/fraction/exponent sequence of a JSON number after the
optional sign `sgn`. -/
def parseNumCore (sgn : List Char) (cs1 : List Char) : Option (List Char × List Char) :=
  match parseIntPart cs1 with
  | none => none
  | some (ip, cs2) =>
    match parseFracPart cs2 with
    | none => none
    | some (fp, cs3) =>
      match parseExpPart cs3 with
      | none => none
      | some (ep, cs4) => some (sgn ++ ip ++ fp ++ ep, cs4)

/-- Parse a JSON number (including an optional leading `-`), returning
its raw lexeme and the rest of the input. -/
def parseNum (cs : List Char) : Option (List Char × List Char) :=
  match cs with
  | c :: r => if c = '-' then parseNumCore [c] r else parseNumCore [] (c :: r)
  | [] => parseNumCore [] []

/-- Characters that can occur in a JSON number lexeme. -/
def numChar (c : Char) : Bool :=
  c = '-' || c = '+' || c = '.' || c = 'e' || c = 'E' || c.isDigit

/-- If `lit` is a prefix of `cs`, return the rest of `cs`. -/
def stripLit : List Char → List Char → Option (List Char)
  | [], cs => some cs
  | _ :: _, [] => none
  | l :: ls, c :: cs => if l = c then stripLit ls cs else none

mutual

/-- Parse one JSON value starting at a non-whitespace position.  Fuel
decreases on every recursive step; each unit of fuel advances past at
least one input character every two levels, so `2 * length + 4` fuel
(as supplied by `jsonParse`) always suffices. -/
def parseVal : Nat → List Char → Option (Json × List Char)
  | 0, _ => none
  | _ + 1, [] => none
  | fuel + 1, c :: cs =>
    if c = 'n' then
      match stripLit ['u', 'l', 'l'] cs with
      | some r => some (Json.null, r)
      | none => none
    else if c = 't' then
      match stripLit ['r', 'u', 'e'] cs with
      | some r => some (Json.bool true, r)
      | none => none
    else if c = 'f' then
      match stripLit ['a', 'l', 's', 'e'] cs with
      | some r => some (Json.bool false, r)
      | none => none
    else if c = '"' then
      match parseStr cs with
      | some (body, r) => some (Json.str body, r)
      | none => none
    else if c = '[' then
      match skipWsL cs with
      | [] => none
      | d :: r =>
        if d = ']' then some (Json.arr [], r)
        else
          match parseElems fuel (d :: r) with
          | some (xs, rr) => some (Json.arr xs, rr)
          | none => none
    else if c = '{' then
      match skipWsL cs with
      | [] => none
      | d :: r =>
        if d = '}' then some (Json.obj [], r)
        else
          match parseMembers fuel (d :: r) with
          | some (ms, rr) => some (Json.obj ms, rr)
          | none => none
    else if c = '-' || c.isDigit then
      match parseNum (c :: cs) with
      | some (lex, r) => some (Json.num lex, r)
      | none => none
    else none

/-- Parse the non-empty element list of a JSON array, consuming the
closing `]`. -/
def parseElems : Nat → List Char → Option (List Json × List Char)
  | 0, _ => none
  | fuel + 1, cs =>
    match parseVal fuel cs with
    | none => none
    | some (v, r1) =>
      match skipWsL r1 with
      | [] => none
      | d :: r2 =>
        if d = ',' then
          match parseElems fuel (skipWsL r2) with
          | some (vs, r3) => some (v :: vs, r3)
          | none => none
        else if d = ']' then some ([v], r2)
        else none

/-- Parse the non-empty member list of a JSON object, consuming the
closing `}`. -/
def parseMembers : Nat → List Char → Option (List (List Char × Json) × List Char)
  | 0, _ => none
  | fuel + 1, cs =>
    match cs with
    | [] => none
    | c :: cs' =>
      if c = '"' then
        match parseStr cs' with
        | none => none
        | some (key, r1) =>
          match skipWsL r1 with
          | [] => none
          | d :: r2 =>
            if d = ':' then
              match parseVal fuel (skipWsL r2) with
              | none => none
              | some (v, r3) =>
                match skipWsL r3 with
                | [] => none
                | e :: r4 =>
                  if e = ',' then
                    match parseMembers fuel (skipWsL r4) with
                    | some (ms, r5) => some ((key, v) :: ms, r5)
                    | none => none
                  else if e = '}' then some ([(key, v)], r4)
                  else none
            else none
      else none

end

/-- Trim JSON whitespace from both ends (what `JSON.parse` skips around
the single top-level value). -/
def trimJson (cs : List Char) : List Char :=
  dropTrail isJsonWs (cs.dropWhile isJsonWs)

/-- Model of `JSON.parse`: skip surrounding JSON whitespace, parse exactly
one value, and require that it spans the whole remaining text.  The fuel
`2 * length + 4` is always sufficient (see `parseVal`), so the model
rejects an input exactly when `JSON.parse` throws. -/
def jsonParse (cs : List Char) : Option Json :=
  match parseVal (2 * (trimJson cs).length + 4) (trimJson cs) with
  | some (v, []) => some v
  | _ => none

/-! ## The markdown fence regex of `cleanAndParseJson`

The source matches `trimmed` against the regular expression
followed by a lazy interior and a closing fence: an opening
backtick-backtick-backtick-`json`-newline, the shortest interior, and a
newline-backtick-backtick-backtick close.  `fenceSearch` returns the
captured group of the leftmost match, scanning positions left to right
and, at a matching open fence, taking the earliest close fence at or
after the end of the open fence (the lazy `[\s\S]*?`). -/

/-- The 8-character opening fence: three backticks, `json`, newline. -/
def openFence : List Char := [btChar, btChar, btChar, 'j', 's', 'o', 'n', '\n']

/-- The 4-character closing fence: newline, three backticks. -/
def closeFence : List Char := ['\n', btChar, btChar, btChar]

/-- Does `pat` occur at the head of `cs`? -/
def leadsWith : List Char → List Char → Bool
  | [], _ => true
  | _ :: _, [] => false
  | p :: ps, c :: cs => p = c && leadsWith ps cs

/-- Index of the first occurrence of `pat` in `cs`, if any. -/
def findPat (pat : List Char) : List Char → Option Nat
  | [] => if leadsWith pat [] then some 0 else none
  | c :: cs =>
    if leadsWith pat (c :: cs) then some 0
    else
      match findPat pat cs with
      | some k => some (k + 1)
      | none => none

/-- The captured group of the leftmost match of the fence regex, if the
regex matches anywhere in `cs`. -/
def fenceSearch : List Char → Option (List Char)
  | [] => none
  | c :: cs =>
    if leadsWith openFence (c :: cs) then
      match findPat closeFence ((c :: cs).drop 8) with
      | some k => some (((c :: cs).drop 8).take k)
      | none => fenceSearch cs
    else fenceSearch cs

/-! ## `cleanAndParseJson` (the decoder) -/

/-- The decoder's single failure kind.  In the source every failure path
of `cleanAndParseJson` (parse exception, or a parsed value that is not an
array) ends in the same thrown `Error("The AI returned an invalid data
format. Please check the document or try again.")`. -/
inductive DecodeErr where
  | malformedResponse

/-- The text `cleanAndParseJson` hands to `JSON.parse`: the trimmed input,
with the interior of a matched fence substituted when the fence regex
matches. -/
def fenceStripped (text : List Char) : List Char :=
  match fenceSearch (jsTrim text) with
  | some inner => inner
  | none => jsTrim text

/-- Model of `cleanAndParseJson` (list form): trim, strip an optional
`json`-labelled markdown fence, `JSON.parse`, and require an array;
everything else is the single malformed-response failure. -/
def cleanAndParseJsonL (text : List Char) : Except DecodeErr (List Json) :=
  match jsonParse (fenceStripped text) with
  | some (Json.arr xs) => Except.ok xs
  | _ => Except.error DecodeErr.malformedResponse

/-- Model of `cleanAndParseJson` on `String`. -/
def cleanAndParseJson (text : String) : Except DecodeErr (List Json) :=
  cleanAndParseJsonL text.data

/-! ## Invariants of text consumed by the JSON parser -/

/-- No line feed immediately followed by a backtick anywhere in `cs`.
Text accepted by `jsonParse` satisfies this, which is why a valid JSON
array can contain neither the closing fence `"\n" ++ three backticks`
nor (a fortiori) a full fence match. -/
def noNlBt : List Char → Bool
  | [] => true
  | [_] => true
  | a :: b :: r => !(a = '\n' && b = btChar) && noNlBt (b :: r)

/-- Invariant of the text consumed by one successful `parseVal`:
nonempty, begins with a value-start character, ends with a character
that is not JavaScript whitespace, and contains no newline-backtick
pair. -/
def ConsumedV (pre : List Char) : Prop :=
  pre ≠ [] ∧
  (∀ c, pre.head? = some c → isValueStart c = true) ∧
  (∀ c, pre.getLast? = some c → isJsWs c = false) ∧
  noNlBt pre = true

/-- Invariant of text consumed by `parseElems`: begins with a value-start
character and ends with the closing `]`. -/
def ConsumedE (pre : List Char) : Prop :=
  pre ≠ [] ∧
  (∀ c, pre.head? = some c → isValueStart c = true) ∧
  pre.getLast? = some ']' ∧
  noNlBt pre = true

/-- Invariant of text consumed by `parseMembers`: begins with the opening
quote of a key and ends with the closing `}`. -/
def ConsumedM (pre : List Char) : Prop :=
  pre ≠ [] ∧
  pre.head? = some '"' ∧
  pre.getLast? = some '}' ∧
  noNlBt pre = true

/-! ## Pipeline model (`fileToGenerativePart`, `processStatementFiles`)

The per-file rendering environment is abstract data: what pdf.js's
`getDocument` does on the file's bytes, and what the `FileReader` read
yields.  The pipeline itself (branching, page loop, `Promise.all`,
empty-batch check, one service call, decoding) is translated from the
source. -/

/-- One `Part` as assembled by `fileToGenerativePart`: an `inlineData`
entry with a mime type tag and a base64 payload. -/
structure Part where
  mimeType : String
  data : String
deriving DecidableEq

/-- One input file together with the behaviour of the external
capabilities on it. -/
structure InputFile where
  /-- `file.name`, used in diagnostics. -/
  name : String
  /-- `file.type`, the declared media type; the PDF branch is taken
  exactly when it equals `"application/pdf"`. -/
  ftype : String
  /-- Behaviour of `pdfjsLib.getDocument` on the file's bytes: `none`
  when opening rejects (corrupt or password-protected), otherwise the
  per-page render outcomes in page order — `some data` when the page
  rasterizes and JPEG-encodes to base64 payload `data`, `none` when
  `getPage`/`render` for that page throws. -/
  pdfOpen : Option (List (Option String))
  /-- Behaviour of the `FileReader` read: `some data` when `readAsDataURL`
  succeeds with base64 payload `data`, `none` when the read fails and
  `reader.result` is `null`. -/
  imgRead : Option String

/-- The typed failures of the pipeline; each constructor corresponds to
one `throw new Error(...)` site in the source (the message carries the
payload recorded here). -/
inductive PipeError where
  /-- `getPdfJs()` rejected; its error propagates out of the PDF branch. -/
  | libLoadError
  /-- `Could not read {name}. It might be corrupted or password-protected.` -/
  | documentOpenError (name : String)
  /-- `An error occurred while rendering page {page} from {name}. ...` -/
  | pageRenderError (page : Nat) (name : String)
  /-- `No processable content found in the selected files.` -/
  | emptyBatch
  /-- `Received an empty response from the AI. ...` -/
  | emptyResponse
  /-- `The AI returned an invalid data format. ...` -/
  | malformedResponse
  /-- transport/service failure of `generateContent`, cause preserved. -/
  | serviceError
deriving DecidableEq

/-- Observable events of one pipeline run. -/
inductive Event where
  /-- rasterization of page `page` of document `name` was attempted. -/
  | rasterize (name : String) (page : Nat)
  /-- `ai.models.generateContent` was invoked with payload `batch`. -/
  | serviceCall (batch : List Part)
deriving DecidableEq

/-- Result of one asynchronous computation: resolved, rejected, or never
settled. -/
inductive Async (α : Type) where
  | ok (a : α)
  | err (e : PipeError)
  | hang
deriving DecidableEq

/-- The page loop of the PDF branch: for pages `i, i+1, ...` in order,
attempt rasterization; the first failing page aborts the document with
`pageRenderError`; otherwise one JPEG part per page, in page order. -/
def renderPages (name : String) : Nat → List (Option String) → Async (List Part) × List Event
  | _, [] => (.ok [], [])
  | i, p :: ps =>
    match p with
    | none => (.err (.pageRenderError i name), [Event.rasterize name i])
    | some d =>
      let rest := renderPages name (i + 1) ps
      ((match rest.1 with
        | .ok parts => .ok ({ mimeType := "image/jpeg", data := d } :: parts)
        | other => other),
       Event.rasterize name i :: rest.2)

/-- Model of `fileToGenerativePart`.  `libOk` is the outcome of the
awaited `getPdfJs()` (its rejection propagates out of the PDF branch
before the document is opened).  The image branch awaits a promise with
no rejection path: when the read fails, the `onloadend` callback throws
a `TypeError` on the `null` result before calling `resolve`, so the
promise never settles — modelled as `Async.hang`. -/
def fileToGenerativePart (libOk : Bool) (f : InputFile) : Async (List Part) × List Event :=
  if f.ftype = "application/pdf" then
    if libOk then
      match f.pdfOpen with
      | none => (.err (.documentOpenError f.name), [])
      | some pages => renderPages f.name 1 pages
    else (.err .libLoadError, [])
  else
    match f.imgRead with
    | none => (.hang, [])
    | some d => (.ok [{ mimeType := f.ftype, data := d }], [])

/-- `Promise.all` over the per-file renders: rejects when any render
rejects (under several rejections the temporally first wins; the model
picks the leftmost — no claim distinguishes them), never settles when no
render rejects but one hangs, and otherwise resolves with the per-file
part lists in input order — the order guarantee of `Promise.all`,
independent of completion order. -/
def promiseAll : List (Async (List Part)) → Async (List (List Part))
  | [] => .ok []
  | r :: rs =>
    match r with
    | .err e => .err e
    | .hang =>
      match promiseAll rs with
      | .err e => .err e
      | .hang => .hang
      | .ok _ => .hang
    | .ok ps =>
      match promiseAll rs with
      | .err e => .err e
      | .hang => .hang
      | .ok pss => .ok (ps :: pss)

/-- The extraction service's behaviour for the single
`generateContent` call of a run. -/
inductive ServiceBeh where
  /-- the call resolves and `response.text` is the string `response`. -/
  | text (response : String)
  /-- the call resolves but `response.text` is empty/undefined. -/
  | noText
  /-- the call rejects (transport/service failure). -/
  | transportFailure

/-- Model of `processStatementFiles`: render every file, await all
renders, flatten the parts in input order, reject an empty batch before
any service call, then make the one service call and decode its text.
The second component is the run's event trace. -/
def processStatementFiles (libOk : Bool) (svc : ServiceBeh) (files : List InputFile) :
    Async (List Json) × List Event :=
  let renders := files.map (fileToGenerativePart libOk)
  let renderEvents := (renders.map Prod.snd).flatten
  match promiseAll (renders.map Prod.fst) with
  | .err e => (.err e, renderEvents)
  | .hang => (.hang, renderEvents)
  | .ok partss =>
    let imageParts := partss.flatten
    if imageParts.length = 0 then (.err .emptyBatch, renderEvents)
    else
      ((match svc with
        | .transportFailure => .err .serviceError
        | .noText => .err .emptyResponse
        | .text s =>
          match cleanAndParseJson s with
          | .ok ts => .ok ts
          | .error _ => .err .malformedResponse),
       renderEvents ++ [Event.serviceCall imageParts])

/-! ## The pdf.js loader (`getPdfJs`) state machine

The mutable state is `window.pdfjsLib`, `window['pdfjs-dist/build/pdf']`
and the module-level `pdfjsLibPromise` cache (`none` models JS `null`).
Library handles are abstract `Nat` tokens. -/

/-- Why a load attempt failed. -/
inductive LoadErr where
  /-- `PDF processing library failed to load. Please check your network
  connection and try again.` (script `onerror`). -/
  | scriptLoadFailed
  /-- `pdf.js loaded but the library object is not found on the window.`
  (script `onload`, global missing). -/
  | libObjectMissing
deriving DecidableEq

/-- The settlement state of the cached promise. -/
inductive PromiseSt where
  | pending
  | fulfilled (lib : Nat)
  | rejected (e : LoadErr)
deriving DecidableEq

/-- The state `getPdfJs` reads and writes. -/
structure LoaderState where
  winPdfjsLib : Option Nat
  winPdfjsDist : Option Nat
  cache : Option PromiseSt
deriving DecidableEq

/-- What one call to `getPdfJs()` returns, before any awaiting. -/
inductive CallRes where
  /-- the library was already on the window: `Promise.resolve(lib)`. -/
  | immediate (lib : Nat)
  /-- the cached `pdfjsLibPromise` was returned unchanged. -/
  | joined
  /-- a fresh promise was created and cached, and a script element was
  created and appended (one load side effect). -/
  | started
deriving DecidableEq

/-- Model of one call to `getPdfJs`: use the window object if present,
else join the cached promise if present, else start a fresh load.
(The `workerSrc` configuration on the immediate path is not modelled;
no claim depends on it.) -/
def getPdfJs (s : LoaderState) : LoaderState × CallRes :=
  match s.winPdfjsLib.or s.winPdfjsDist with
  | some lib => (s, .immediate lib)
  | none =>
    match s.cache with
    | some _ => (s, .joined)
    | none => ({ s with cache := some .pending }, .started)

/-- How an in-flight script load can complete. -/
inductive LoadEv where
  /-- `onload` fired; `found` is `window['pdfjs-dist/build/pdf']` after
  the script ran. -/
  | loaded (found : Option Nat)
  /-- `onerror` fired. -/
  | errored

/-- Settlement of the in-flight load, exactly as the `onload`/`onerror`
handlers update the state; the second component is the outcome observed
by every caller awaiting the cached promise.  Note: only the `onerror`
path resets the cache to `null`; the `onload`-with-missing-global path
leaves the rejected promise cached. -/
def settle (s : LoaderState) (ev : LoadEv) : LoaderState × Except LoadErr Nat :=
  match ev with
  | .loaded (some lib) =>
      ({ winPdfjsLib := some lib, winPdfjsDist := some lib,
         cache := some (.fulfilled lib) }, .ok lib)
  | .loaded none =>
      ({ s with cache := some (.rejected .libObjectMissing) }, .error .libObjectMissing)
  | .errored =>
      ({ s with cache := none }, .error .scriptLoadFailed)

/-- `n` consecutive calls to `getPdfJs` with no settlement in between
(concurrent callers during one in-flight load), returning the final
state and the call results in order. -/
def callSeq : LoaderState → Nat → LoaderState × List CallRes
  | s, 0 => (s, [])
  | s, n + 1 =>
    let first := getPdfJs s
    let rest := callSeq first.1 n
    (rest.1, first.2 :: rest.2)

/-- How many calls in a result list started a fresh script load (each
`started` is one `createElement`/`appendChild` side effect). -/
def startedCount (rs : List CallRes) : Nat :=
  (rs.filter (fun r => match r with | .started => true | _ => false)).length

/-- The outcome a caller holding result `r` observes once the in-flight
load settles with outcome `out`: an `immediate` caller already has the
library; `joined` and `started` callers await the single cached promise
and observe its settlement. -/
def observe (r : CallRes) (out : Except LoadErr Nat) : Except LoadErr Nat :=
  match r with
  | .immediate lib => .ok lib
  | .joined => out
  | .started => out

/-! # Theorems -/

/-! ## Character and trimming helpers -/

theorem char_eq_of_toNat_eq {c d : Char} (h : c.toNat = d.toNat) : c = d := by
  rw [← Char.ofNat_toNat c, h, Char.ofNat_toNat]

/-- `dropWhile` is the identity when the head (if any) fails the
predicate. -/
theorem dropWhile_eq_self_of_head {p : Char → Bool} {cs : List Char}
    (h : ∀ c, cs.head? = some c → p c = false) : cs.dropWhile p = cs := by
  cases cs with
  | nil => rfl
  | cons c cs' =>
    have := h c rfl
    simp [List.dropWhile, this]

/-- `dropTrail` is the identity when the last element (if any) fails the
predicate. -/
theorem dropTrail_eq_self_of_last {p : Char → Bool} {cs : List Char}
    (h : ∀ c, cs.getLast? = some c → p c = false) : dropTrail p cs = cs := by
  unfold dropTrail
  rw [dropWhile_eq_self_of_head, List.reverse_reverse]
  intro c hc
  rw [List.head?_reverse] at hc
  exact h c hc

/-- `jsTrim` is the identity when neither end is JS whitespace. -/
theorem jsTrim_eq_self {cs : List Char}
    (hh : ∀ c, cs.head? = some c → isJsWs c = false)
    (hl : ∀ c, cs.getLast? = some c → isJsWs c = false) : jsTrim cs = cs := by
  unfold jsTrim
  rw [dropWhile_eq_self_of_head hh, dropTrail_eq_self_of_last hl]

/-- `trimJson` is the identity when neither end is JSON whitespace. -/
theorem trimJson_eq_self {cs : List Char}
    (hh : ∀ c, cs.head? = some c → isJsonWs c = false)
    (hl : ∀ c, cs.getLast? = some c → isJsonWs c = false) : trimJson cs = cs := by
  unfold trimJson
  rw [dropWhile_eq_self_of_head hh, dropTrail_eq_self_of_last hl]

/-- JSON whitespace is JS whitespace. -/
theorem isJsWs_of_isJsonWs {c : Char} (h : isJsonWs c = true) : isJsWs c = true := by
  simp only [isJsonWs, Bool.or_eq_true, decide_eq_true_eq] at h
  simp only [isJsWs, Bool.or_eq_true, decide_eq_true_eq, Bool.and_eq_true]
  omega

/-- `parseVal` fails immediately on a character that cannot start a JSON
value. -/
theorem parseVal_none_of_not_start {c : Char} (cs : List Char) (fuel : Nat)
    (h : isValueStart c = false) : parseVal fuel (c :: cs) = none := by
  cases fuel with
  | zero => rfl
  | succ f =>
    unfold parseVal
    split_ifs with a1 a2 a3 a4 a5 a6 a7
    all_goals first
      | rfl
      | (exfalso; revert h; simp_all [isValueStart]; done)
      | (exfalso; simp only [Bool.or_eq_true, decide_eq_true_eq] at a7;
         rcases a7 with a7 | a7 <;> revert h <;> simp [isValueStart, a7])

/-! ## Pipeline trace facts -/

/-- Every event the page loop emits is a rasterization of the document
being rendered. -/
theorem renderPages_events {name : String} :
    ∀ (pages : List (Option String)) (i : Nat) (ev : Event),
      ev ∈ (renderPages name i pages).2 → ∃ p, ev = Event.rasterize name p := by
  intro pages
  induction pages with
  | nil => intro i ev h; simp [renderPages] at h
  | cons p ps ih =>
    intro i ev h
    cases p with
    | none =>
      simp [renderPages] at h
      exact ⟨i, h⟩
    | some d =>
      simp only [renderPages, List.mem_cons] at h
      rcases h with h | h
      · exact ⟨i, h⟩
      · exact ih (i + 1) ev h

/-- Every event a single file render emits is a rasterization of that
file. -/
theorem fileToGenerativePart_events (libOk : Bool) (f : InputFile) (ev : Event)
    (h : ev ∈ (fileToGenerativePart libOk f).2) : ∃ p, ev = Event.rasterize f.name p := by
  unfold fileToGenerativePart at h
  by_cases hpdf : f.ftype = "application/pdf"
  · simp only [hpdf, if_pos, if_true] at h
    cases libOk with
    | false => simp at h
    | true =>
      cases hopen : f.pdfOpen with
      | none => simp [hopen] at h
      | some pages =>
        simp only [hopen, if_true] at h
        exact renderPages_events pages 1 ev h
  · simp only [hpdf, if_false] at h
    cases hread : f.imgRead with
    | none => simp [hread] at h
    | some d => simp [hread] at h

/-- The concatenated render trace of a run contains no service call. -/
theorem renderEvents_no_service (libOk : Bool) (files : List InputFile) (b : List Part) :
    Event.serviceCall b ∉ ((files.map (fileToGenerativePart libOk)).map Prod.snd).flatten := by
  intro h
  rw [List.mem_flatten] at h
  obtain ⟨l, hl, hmem⟩ := h
  rw [List.mem_map] at hl
  obtain ⟨pr, hpr, rfl⟩ := hl
  rw [List.mem_map] at hpr
  obtain ⟨f, _, rfl⟩ := hpr
  obtain ⟨p, hp⟩ := fileToGenerativePart_events libOk f _ hmem
  exact Event.noConfusion hp

/-- C2: whenever the (joined) rendering of a batch yields zero encoded
pages — in particular for the empty file list — `processStatementFiles`
fails with the empty-batch error and the extraction service is never
invoked; moreover a service call, when one happens, never carries an
empty payload batch. -/
theorem processStatementFiles_empty_batch :
    (∀ (libOk : Bool) (svc : ServiceBeh) (files : List InputFile)
        (partss : List (List Part)),
        promiseAll ((files.map (fileToGenerativePart libOk)).map Prod.fst) =
          Async.ok partss →
        partss.flatten = [] →
        (processStatementFiles libOk svc files).1 = Async.err PipeError.emptyBatch ∧
        ∀ b, Event.serviceCall b ∉ (processStatementFiles libOk svc files).2) ∧
    (∀ (libOk : Bool) (svc : ServiceBeh),
        (processStatementFiles libOk svc []).1 = Async.err PipeError.emptyBatch ∧
        ∀ b, Event.serviceCall b ∉ (processStatementFiles libOk svc []).2) ∧
    (∀ (libOk : Bool) (svc : ServiceBeh) (files : List InputFile) (b : List Part),
        Event.serviceCall b ∈ (processStatementFiles libOk svc files).2 → b ≠ []) := by
  have main : ∀ (libOk : Bool) (svc : ServiceBeh) (files : List InputFile)
      (partss : List (List Part)),
      promiseAll ((files.map (fileToGenerativePart libOk)).map Prod.fst) =
        Async.ok partss →
      partss.flatten = [] →
      (processStatementFiles libOk svc files).1 = Async.err PipeError.emptyBatch ∧
      ∀ b, Event.serviceCall b ∉ (processStatementFiles libOk svc files).2 := by
    intro libOk svc files partss hall hflat
    unfold processStatementFiles
    simp only [hall, hflat]
    refine ⟨rfl, ?_⟩
    intro b
    exact renderEvents_no_service libOk files b
  refine ⟨main, ?_, ?_⟩
  · intro libOk svc
    exact main libOk svc [] [] rfl rfl
  · intro libOk svc files b h
    unfold processStatementFiles at h
    rcases hall : promiseAll ((files.map (fileToGenerativePart libOk)).map Prod.fst) with
      partss | e | _
    · simp only [hall] at h
      by_cases hlen : partss.flatten.length = 0
      · simp only [hlen, if_pos] at h
        exact absurd h (renderEvents_no_service libOk files b)
      · simp only [hlen, if_neg, if_false, List.mem_append, List.mem_singleton] at h
        have hb : b = partss.flatten := by
          rcases h with h | h
          · exact absurd h (renderEvents_no_service libOk files b)
          · injection h
        intro hbnil
        rw [hb] at hbnil
        rw [hbnil] at hlen
        exact hlen rfl
    · simp only [hall] at h
      exact absurd h (renderEvents_no_service libOk files b)
    · simp only [hall] at h
      exact absurd h (renderEvents_no_service libOk files b)

/-- Witness for `processStatementFiles_empty_batch` at the empty file
list. -/
theorem processStatementFiles_empty_batch_witness :
    (processStatementFiles true ServiceBeh.noText []).1 =
      Async.err PipeError.emptyBatch :=
  (processStatementFiles_empty_batch.1 true ServiceBeh.noText [] [] rfl rfl).1

/-! ## PageRenderer (fileToGenerativePart): page counts and order -/

/-- When every page of a paginated document renders, the page loop yields
one JPEG part per page, in page order. -/
theorem renderPages_all_ok {name : String} :
    ∀ (datas : List String) (i : Nat),
      (renderPages name i (datas.map Option.some)).1 =
        Async.ok (datas.map fun d => ({ mimeType := "image/jpeg", data := d } : Part)) := by
  intro datas
  induction datas with
  | nil => intro i; rfl
  | cons d ds ih =>
    intro i
    simp only [List.map_cons, renderPages, ih (i + 1)]

/-- C5: a paginated (PDF) document with `N` pages that all render
successfully produces exactly `N` encoded pages, in page order `1..N`,
each JPEG-encoded; an image document produces exactly one encoded page
tagged with the document's declared media type. -/
theorem fileToGenerativePart_page_counts :
    (∀ (f : InputFile) (datas : List String),
        f.ftype = "application/pdf" →
        f.pdfOpen = some (datas.map Option.some) →
        (fileToGenerativePart true f).1 =
          Async.ok (datas.map fun d => ({ mimeType := "image/jpeg", data := d } : Part))) ∧
    (∀ (libOk : Bool) (f : InputFile) (d : String),
        f.ftype ≠ "application/pdf" →
        f.imgRead = some d →
        (fileToGenerativePart libOk f).1 =
          Async.ok [({ mimeType := f.ftype, data := d } : Part)]) := by
  constructor
  · intro f datas hf hopen
    unfold fileToGenerativePart
    simp only [hf, if_pos, if_true, hopen]
    exact renderPages_all_ok datas 1
  · intro libOk f d hf hread
    unfold fileToGenerativePart
    simp [hf, hread]

/-- Witness for `fileToGenerativePart_page_counts`: a two-page PDF and a
PNG image. -/
theorem fileToGenerativePart_page_counts_witness :
    (fileToGenerativePart true
        { name := "s.pdf", ftype := "application/pdf",
          pdfOpen := some [some "AAA", some "BBB"], imgRead := none }).1 =
      Async.ok [{ mimeType := "image/jpeg", data := "AAA" },
                { mimeType := "image/jpeg", data := "BBB" }] ∧
    (fileToGenerativePart true
        { name := "p.png", ftype := "image/png",
          pdfOpen := none, imgRead := some "CCC" }).1 =
      Async.ok [{ mimeType := "image/png", data := "CCC" }] :=
  ⟨fileToGenerativePart_page_counts.1
      { name := "s.pdf", ftype := "application/pdf",
        pdfOpen := some [some "AAA", some "BBB"], imgRead := none }
      ["AAA", "BBB"] rfl rfl,
   fileToGenerativePart_page_counts.2 true
      { name := "p.png", ftype := "image/png",
        pdfOpen := none, imgRead := some "CCC" }
      "CCC" (by decide) rfl⟩

/-! ## PayloadAssembler (Promise.all + flatten): deterministic order -/

/-- `Promise.all` over renders that all resolve yields the per-file part
lists in input order. -/
theorem promiseAll_all_ok (libOk : Bool) (pf : InputFile → List Part) :
    ∀ files : List InputFile,
      (∀ f ∈ files, (fileToGenerativePart libOk f).1 = Async.ok (pf f)) →
      promiseAll ((files.map (fileToGenerativePart libOk)).map Prod.fst) =
        Async.ok (files.map pf) := by
  intro files
  induction files with
  | nil => intro _; rfl
  | cons f fs ih =>
    intro h
    have hf := h f (List.mem_cons_self f fs)
    have hrest := ih fun g hg => h g (List.mem_cons_of_mem f hg)
    simp only [List.map_cons, promiseAll, hf, hrest]

/-- C6: when every document renders successfully, the assembled
`PayloadBatch` sent to the service is the concatenation of each
document's page list in input submission order (with page order inside
each document preserved by `fileToGenerativePart`), independent of
completion order — `promiseAll` resolves in input order by construction. -/
theorem processStatementFiles_batch_order
    (libOk : Bool) (svc : ServiceBeh) (files : List InputFile) (pf : InputFile → List Part)
    (h : ∀ f ∈ files, (fileToGenerativePart libOk f).1 = Async.ok (pf f)) :
    promiseAll ((files.map (fileToGenerativePart libOk)).map Prod.fst) =
      Async.ok (files.map pf) ∧
    ∀ b, Event.serviceCall b ∈ (processStatementFiles libOk svc files).2 →
      b = (files.map pf).flatten := by
  have hall := promiseAll_all_ok libOk pf files h
  refine ⟨hall, ?_⟩
  intro b hmem
  unfold processStatementFiles at hmem
  simp only [hall] at hmem
  by_cases hlen : (files.map pf).flatten.length = 0
  · simp only [hlen, if_pos] at hmem
    exact absurd hmem (renderEvents_no_service libOk files b)
  · simp only [hlen, if_neg, if_false, List.mem_append, List.mem_singleton] at hmem
    rcases hmem with hmem | hmem
    · exact absurd hmem (renderEvents_no_service libOk files b)
    · injection hmem

/-- Witness for `processStatementFiles_batch_order`: two single-page
image documents, batch in submission order. -/
theorem processStatementFiles_batch_order_witness :
    promiseAll
        (([{ name := "a.png", ftype := "image/png", pdfOpen := none, imgRead := some "A" },
           { name := "b.png", ftype := "image/png", pdfOpen := none, imgRead := some "B" }].map
            (fileToGenerativePart true)).map Prod.fst) =
      Async.ok
        [[{ mimeType := "image/png", data := "A" }],
         [{ mimeType := "image/png", data := "B" }]] := by
  have := processStatementFiles_batch_order true ServiceBeh.noText
    [{ name := "a.png", ftype := "image/png", pdfOpen := none, imgRead := some "A" },
     { name := "b.png", ftype := "image/png", pdfOpen := none, imgRead := some "B" }]
    (fun f => [{ mimeType := f.ftype, data := f.imgRead.getD "" }])
    (by intro f hf
        rcases hf with _ | ⟨_, hf⟩
        · rfl
        · rcases hf with _ | ⟨_, hf⟩
          · rfl
          · cases hf)
  exact this.1

/-! ## Corrupt document: DocumentOpenError before rasterization, no service call -/

/-- C7: running the pipeline on one corrupt/encrypted PDF fails with the
document-open error carrying the document's name, and the run's trace is
empty: no page rasterization is attempted and the extraction service is
never invoked. -/
theorem processStatementFiles_corrupt_doc (svc : ServiceBeh) (f : InputFile)
    (hf : f.ftype = "application/pdf") (hopen : f.pdfOpen = none) :
    (processStatementFiles true svc [f]).1 =
      Async.err (PipeError.documentOpenError f.name) ∧
    (processStatementFiles true svc [f]).2 = [] := by
  unfold processStatementFiles
  have hrender : fileToGenerativePart true f =
      (Async.err (PipeError.documentOpenError f.name), []) := by
    unfold fileToGenerativePart
    simp [hf, hopen]
  simp [hrender, promiseAll]

/-- Witness for `processStatementFiles_corrupt_doc`. -/
theorem processStatementFiles_corrupt_doc_witness :
    (processStatementFiles true ServiceBeh.noText
        [{ name := "bad.pdf", ftype := "application/pdf",
           pdfOpen := none, imgRead := none }]).1 =
      Async.err (PipeError.documentOpenError "bad.pdf") :=
  (processStatementFiles_corrupt_doc ServiceBeh.noText
      { name := "bad.pdf", ftype := "application/pdf", pdfOpen := none, imgRead := none }
      rfl rfl).1

/-! ## Unreadable image bytes: the render never settles -/

/-- C8 (code evaluation at the failing input): for an image file whose
`FileReader` read fails (`reader.result` is `null`), the render promise
never settles — the `onloadend` callback throws on the `null` result
before `resolve`, there is no rejection path, and so no
`UnreadableFileError` (nor any error) is ever raised: the pipeline
hangs. -/
theorem fileToGenerativePart_unreadable_image_hangs :
    fileToGenerativePart true
        { name := "photo.png", ftype := "image/png", pdfOpen := none, imgRead := none } =
      (Async.hang, []) := rfl

/-! ## The pdf.js loader: cache reset and single-flight initialization -/

/-- C3 counterexample: start from an empty window with no cached promise,
call `getPdfJs` (caching a pending promise), and let the load complete
with the script loaded but the library object missing.  That failure
outcome leaves the rejected promise cached — the cache is *not* cleared —
and the next call joins the dead promise instead of starting a fresh
initialization. -/
theorem getPdfJs_latches_counterexample :
    (settle (getPdfJs { winPdfjsLib := none, winPdfjsDist := none, cache := none }).1
        (LoadEv.loaded none)).2 = Except.error LoadErr.libObjectMissing ∧
    (settle (getPdfJs { winPdfjsLib := none, winPdfjsDist := none, cache := none }).1
        (LoadEv.loaded none)).1.cache =
      some (PromiseSt.rejected LoadErr.libObjectMissing) ∧
    (getPdfJs (settle (getPdfJs { winPdfjsLib := none, winPdfjsDist := none, cache := none }).1
        (LoadEv.loaded none)).1).2 = CallRes.joined :=
  ⟨rfl, rfl, rfl⟩

/-- C3 amended: after a script-load failure (`onerror`) the cached
promise is cleared and the next call starts a fresh initialization; but
after the failure in which the script loads and the library object is
missing from the window, the rejected promise stays cached and the next
call joins it — that failure latches until something else populates the
window. -/
theorem getPdfJs_reset_semantics (s : LoaderState)
    (hlib : s.winPdfjsLib = none) (hdist : s.winPdfjsDist = none) :
    ((settle s LoadEv.errored).1.cache = none ∧
     (getPdfJs (settle s LoadEv.errored).1).2 = CallRes.started) ∧
    ((settle s (LoadEv.loaded none)).1.cache =
        some (PromiseSt.rejected LoadErr.libObjectMissing) ∧
     (getPdfJs (settle s (LoadEv.loaded none)).1).2 = CallRes.joined) := by
  unfold settle getPdfJs
  simp [hlib, hdist]

/-- Witness for `getPdfJs_reset_semantics` at the state with a pending
in-flight load. -/
theorem getPdfJs_reset_semantics_witness :
    ((settle ⟨none, none, some PromiseSt.pending⟩ LoadEv.errored).1.cache = none ∧
     (getPdfJs (settle ⟨none, none, some PromiseSt.pending⟩ LoadEv.errored).1).2 =
       CallRes.started) ∧
    ((settle ⟨none, none, some PromiseSt.pending⟩ (LoadEv.loaded none)).1.cache =
        some (PromiseSt.rejected LoadErr.libObjectMissing) ∧
     (getPdfJs (settle ⟨none, none, some PromiseSt.pending⟩ (LoadEv.loaded none)).1).2 =
       CallRes.joined) :=
  getPdfJs_reset_semantics ⟨none, none, some PromiseSt.pending⟩ rfl rfl

/-- Once a promise is cached (and the library is not yet on the window),
every further call joins it and the state does not change. -/
theorem callSeq_all_joined :
    ∀ (n : Nat) (s : LoaderState), s.winPdfjsLib = none → s.winPdfjsDist = none →
      s.cache.isSome = true →
      (callSeq s n).2 = List.replicate n CallRes.joined := by
  intro n
  induction n with
  | zero => intro s _ _ _; rfl
  | succ m ih =>
    intro s hlib hdist hc
    obtain ⟨p, hp⟩ := Option.isSome_iff_exists.mp hc
    have hcall : getPdfJs s = (s, CallRes.joined) := by
      unfold getPdfJs
      simp [hlib, hdist, hp]
    simp only [callSeq, hcall, List.replicate]
    exact congrArg (CallRes.joined :: ·) (ih s hlib hdist hc)

/-- No `started` among pure joiners. -/
theorem startedCount_replicate_joined (n : Nat) :
    startedCount (List.replicate n CallRes.joined) = 0 := by
  induction n with
  | zero => rfl
  | succ m ih =>
    simp only [startedCount, List.replicate, List.filter] at ih ⊢
    exact ih

/-- C9: across any number of consecutive `getPdfJs` calls while the
library is not yet on the window, at most one call starts a script load
(single-flight: at most one initialization in flight, no duplicate load
side effects), and all callers that await the in-flight load (`joined`
or `started`) observe the same single settlement outcome. -/
theorem getPdfJs_single_flight :
    (∀ (s : LoaderState) (n : Nat), s.winPdfjsLib = none → s.winPdfjsDist = none →
        startedCount (callSeq s n).2 ≤ 1) ∧
    (∀ (out : Except LoadErr Nat) (r₁ r₂ : CallRes),
        (r₁ = CallRes.joined ∨ r₁ = CallRes.started) →
        (r₂ = CallRes.joined ∨ r₂ = CallRes.started) →
        observe r₁ out = observe r₂ out) := by
  constructor
  · intro s n hlib hdist
    cases hc : s.cache with
    | some p =>
      rw [callSeq_all_joined n s hlib hdist (by rw [hc]; rfl)]
      rw [startedCount_replicate_joined]
      exact Nat.zero_le 1
    | none =>
      cases n with
      | zero => exact Nat.zero_le 1
      | succ m =>
        have hcall : getPdfJs s = ({ s with cache := some PromiseSt.pending }, CallRes.started) := by
          unfold getPdfJs
          simp [hlib, hdist, hc]
        have hrest := callSeq_all_joined m { s with cache := some PromiseSt.pending }
          hlib hdist rfl
        simp only [callSeq, hcall, hrest]
        simp [startedCount, List.filter, List.filter_replicate]
  · intro out r₁ r₂ h₁ h₂
    rcases h₁ with h₁ | h₁ <;> rcases h₂ with h₂ | h₂ <;> subst h₁ <;> subst h₂ <;> rfl

/-- Witness for `getPdfJs_single_flight`: three concurrent callers from
a fresh state, and two waiters observing the one outcome. -/
theorem getPdfJs_single_flight_witness :
    startedCount (callSeq { winPdfjsLib := none, winPdfjsDist := none, cache := none } 3).2 ≤ 1 ∧
    observe CallRes.joined (Except.error LoadErr.scriptLoadFailed) =
      observe CallRes.started (Except.error LoadErr.scriptLoadFailed) :=
  ⟨getPdfJs_single_flight.1 { winPdfjsLib := none, winPdfjsDist := none, cache := none } 3 rfl rfl,
   getPdfJs_single_flight.2 (Except.error LoadErr.scriptLoadFailed) CallRes.joined CallRes.started
     (Or.inl rfl) (Or.inr rfl)⟩

/-! ## ResponseDecoder: malformed iff not an array (C1) -/

/-- C1: `cleanAndParseJson` fails with the malformed-response error
exactly when the trimmed, fence-stripped text does not parse as a JSON
array; when it does parse as an array, the array is returned verbatim
with no per-record validation.  Concretely: `"not json"` and `"{}"`
fail, `"[]"` yields the empty list, and a record missing required
fields (e.g. `amount`) passes through unchanged. -/
theorem cleanAndParseJson_malformed_iff :
    (∀ text : String,
        (cleanAndParseJson text = Except.error DecodeErr.malformedResponse ↔
          ∀ xs, jsonParse (fenceStripped text.data) ≠ some (Json.arr xs)) ∧
        (∀ xs, jsonParse (fenceStripped text.data) = some (Json.arr xs) →
          cleanAndParseJson text = Except.ok xs)) ∧
    cleanAndParseJson "not json" = Except.error DecodeErr.malformedResponse ∧
    cleanAndParseJson "\x7b\x7d" = Except.error DecodeErr.malformedResponse ∧
    cleanAndParseJson "[]" = Except.ok [] ∧
    cleanAndParseJson "[\x7b\"date\":\"2024-01-05\"\x7d]" =
      Except.ok [Json.obj [("date".data, Json.str "2024-01-05".data)]] := by
  refine ⟨?_, by rfl, by rfl, by rfl, by rfl⟩
  intro text
  unfold cleanAndParseJson cleanAndParseJsonL
  cases hr : jsonParse (fenceStripped text.data) with
  | none =>
    refine ⟨⟨fun _ xs hxs => Option.noConfusion hxs, fun _ => rfl⟩, ?_⟩
    intro xs hxs
    exact Option.noConfusion hxs
  | some v =>
    cases v with
    | arr xs =>
      refine ⟨⟨fun hcontra => ?_, fun hall => ?_⟩, fun ys hys => ?_⟩
      · exact Except.noConfusion hcontra
      · exact absurd rfl (hall xs)
      · injection hys with hys
        injection hys with hys
        rw [hys]
    | null =>
      refine ⟨⟨fun _ xs hxs => by injection hxs with hxs; exact Json.noConfusion hxs,
               fun _ => rfl⟩, ?_⟩
      intro xs hxs
      injection hxs with hxs
      exact Json.noConfusion hxs
    | bool b =>
      refine ⟨⟨fun _ xs hxs => by injection hxs with hxs; exact Json.noConfusion hxs,
               fun _ => rfl⟩, ?_⟩
      intro xs hxs
      injection hxs with hxs
      exact Json.noConfusion hxs
    | num lx =>
      refine ⟨⟨fun _ xs hxs => by injection hxs with hxs; exact Json.noConfusion hxs,
               fun _ => rfl⟩, ?_⟩
      intro xs hxs
      injection hxs with hxs
      exact Json.noConfusion hxs
    | str lx =>
      refine ⟨⟨fun _ xs hxs => by injection hxs with hxs; exact Json.noConfusion hxs,
               fun _ => rfl⟩, ?_⟩
      intro xs hxs
      injection hxs with hxs
      exact Json.noConfusion hxs
    | obj ms =>
      refine ⟨⟨fun _ xs hxs => by injection hxs with hxs; exact Json.noConfusion hxs,
               fun _ => rfl⟩, ?_⟩
      intro xs hxs
      injection hxs with hxs
      exact Json.noConfusion hxs

/-- Witness for `cleanAndParseJson_malformed_iff`: the verbatim branch
at a concrete array. -/
theorem cleanAndParseJson_malformed_iff_witness :
    cleanAndParseJson "[1]" = Except.ok [Json.num ['1']] :=
  (cleanAndParseJson_malformed_iff.1 "[1]").2 [Json.num ['1']] (by rfl)

/-! ## ResponseDecoder: only a json-labelled fence is stripped (C10) -/

/-- C10: stripping applies only to a fence opened with three backticks,
`json`, and a newline.  A text wrapped in an unlabeled fence on which
the fence regex finds no match is handed to `JSON.parse` verbatim
(fences included) and always fails as malformed, since a backtick can
start no JSON value; concretely the unlabeled-fenced `[]` fails. -/
theorem cleanAndParseJson_unlabeled_fence :
    (∀ body : String,
        fenceSearch (jsTrim ("```\n" ++ body ++ "\n```").data) = none →
        cleanAndParseJson ("```\n" ++ body ++ "\n```") =
          Except.error DecodeErr.malformedResponse) ∧
    fenceSearch (jsTrim "```\n[]\n```".data) = none ∧
    cleanAndParseJson "```\n[]\n```" = Except.error DecodeErr.malformedResponse := by
  refine ⟨?_, by rfl, by rfl⟩
  intro body h
  unfold cleanAndParseJson cleanAndParseJsonL fenceStripped
  have h1 : "```\n".data = [btChar, btChar, btChar, '\n'] := by decide
  have h2 : "\n```".data = ['\n', btChar, btChar, btChar] := by decide
  have hw : ("```\n" ++ body ++ "\n```").data =
      btChar :: ([btChar, btChar, '\n'] ++ body.data ++ ['\n', btChar, btChar, btChar]) := by
    rw [String.data_append, String.data_append, h1, h2]
    simp
  have hlastr :
      (btChar :: ([btChar, btChar, '\n'] ++ body.data ++
        ['\n', btChar, btChar, btChar])).getLast? = some btChar := by
    have hsplit : btChar :: ([btChar, btChar, '\n'] ++ body.data ++
        ['\n', btChar, btChar, btChar]) =
        (btChar :: ([btChar, btChar, '\n'] ++ body.data)) ++ ['\n', btChar, btChar, btChar] := by
      simp
    rw [hsplit, List.getLast?_append]
    rfl
  have hheadc : ∀ c, (btChar :: ([btChar, btChar, '\n'] ++ body.data ++
      ['\n', btChar, btChar, btChar])).head? = some c → c = btChar := by
    intro c hc
    simp only [List.head?_cons, Option.some.injEq] at hc
    exact hc.symm
  have hlastc : ∀ c, (btChar :: ([btChar, btChar, '\n'] ++ body.data ++
      ['\n', btChar, btChar, btChar])).getLast? = some c → c = btChar := by
    intro c hc
    rw [hlastr] at hc
    injection hc with hc
    exact hc.symm
  rw [hw] at h ⊢
  rw [h]
  have htrim : jsTrim (btChar :: ([btChar, btChar, '\n'] ++ body.data ++
      ['\n', btChar, btChar, btChar])) =
      btChar :: ([btChar, btChar, '\n'] ++ body.data ++ ['\n', btChar, btChar, btChar]) := by
    apply jsTrim_eq_self
    · intro c hc; rw [hheadc c hc]; decide
    · intro c hc; rw [hlastc c hc]; decide
  rw [htrim]
  have hparse : jsonParse (btChar :: ([btChar, btChar, '\n'] ++ body.data ++
      ['\n', btChar, btChar, btChar])) = none := by
    unfold jsonParse
    have htrimj : trimJson (btChar :: ([btChar, btChar, '\n'] ++ body.data ++
        ['\n', btChar, btChar, btChar])) =
        btChar :: ([btChar, btChar, '\n'] ++ body.data ++ ['\n', btChar, btChar, btChar]) := by
      apply trimJson_eq_self
      · intro c hc; rw [hheadc c hc]; decide
      · intro c hc; rw [hlastc c hc]; decide
    rw [htrimj, parseVal_none_of_not_start _ _ (by decide)]
  rw [hparse]

/-- Witness for `cleanAndParseJson_unlabeled_fence` at body `[]`. -/
theorem cleanAndParseJson_unlabeled_fence_witness :
    cleanAndParseJson ("```\n" ++ "[]" ++ "\n```") =
      Except.error DecodeErr.malformedResponse :=
  cleanAndParseJson_unlabeled_fence.1 "[]" (by rfl)

/-! ## JSON lexeme invariants (towards C4) -/


theorem le_toNat_of_isDigit {c : Char} (h : c.isDigit = true) : 48 ≤ c.toNat ∧ c.toNat ≤ 57 := by
  simp [Char.isDigit] at h
  exact h

theorem le_toNat_of_isHexDigit {c : Char} (h : isHexDigit c = true) : 32 ≤ c.toNat := by
  simp only [isHexDigit, Bool.or_eq_true, Bool.and_eq_true, decide_eq_true_eq] at h
  rcases h with (h | ⟨h1, h2⟩) | ⟨h1, h2⟩
  · have := le_toNat_of_isDigit h
    omega
  · have : ('a').toNat ≤ c.toNat := by
      simpa [Char.le_def] using h1
    simp [Char.toNat, UInt32.size] at this ⊢
    omega
  · have : ('A').toNat ≤ c.toNat := by
      simpa [Char.le_def] using h1
    simp [Char.toNat, UInt32.size] at this ⊢
    omega

theorem parseStr_inv : ∀ cs body rest, parseStr cs = some (body, rest) →
    cs = body ++ '"' :: rest ∧ ∀ c ∈ body, 32 ≤ c.toNat := by
  intro cs
  induction cs using parseStr.induct with
  | case1 => intro body rest h; exact Option.noConfusion h
  | case2 cs' =>
    intro body rest h
    rw [parseStr.eq_def] at h
    simp at h
    obtain ⟨rfl, rfl⟩ := h
    exact ⟨rfl, by intro c hc; cases hc⟩
  | case3 hne =>
    intro body rest h
    rw [parseStr.eq_def] at h
    simp at h
  | case4 h1 h2 h3 h4 cs'' hhex body0 rest0 hp hne ih =>
    intro body rest h
    rw [parseStr.eq_def] at h
    simp only [hhex, hp, if_true] at h
    simp only [show ¬('\\' = '"') from by decide, if_false, if_pos rfl,
      Option.some.injEq, Prod.mk.injEq] at h
    obtain ⟨hb, hr⟩ := h
    subst hb; subst hr
    obtain ⟨hcs, hmem⟩ := ih body0 rest0 hp
    subst hcs
    refine ⟨by simp, ?_⟩
    intro c hc
    simp only [List.mem_cons] at hc
    simp only [Bool.and_eq_true] at hhex
    obtain ⟨⟨⟨q1, q2⟩, q3⟩, q4⟩ := hhex
    rcases hc with rfl | rfl | rfl | rfl | rfl | rfl | hc
    · decide
    · decide
    · exact le_toNat_of_isHexDigit q1
    · exact le_toNat_of_isHexDigit q2
    · exact le_toNat_of_isHexDigit q3
    · exact le_toNat_of_isHexDigit q4
    · exact hmem c hc
  | case5 h1 h2 h3 h4 cs'' hhex hp hne ih =>
    intro body rest h
    rw [parseStr.eq_def] at h
    simp [hhex, hp] at h
  | case6 h1 h2 h3 h4 cs'' hnhex hne =>
    intro body rest h
    rw [parseStr.eq_def] at h
    simp [hnhex] at h
  | case7 cs' hshape hne =>
    intro body rest h
    rw [parseStr.eq_def] at h
    rcases hm : cs' with _ | ⟨a, _ | ⟨b, _ | ⟨c', _ | ⟨d, tl⟩⟩⟩⟩ <;> subst hm <;>
      first
        | exact (hshape _ _ _ _ _ rfl).elim
        | simp at h
  | case8 e cs' hneu hesc body0 rest0 hp ih1 ih =>
    intro body rest h
    rw [parseStr.eq_def] at h
    simp only [hesc, hp, if_true, if_neg hneu] at h
    simp only [show ¬('\\' = '"') from by decide, if_false, if_pos rfl,
      Option.some.injEq, Prod.mk.injEq] at h
    obtain ⟨hb, hr⟩ := h
    subst hb; subst hr
    obtain ⟨hcs, hmem⟩ := ih body0 rest0 hp
    subst hcs
    refine ⟨by simp, ?_⟩
    intro c hc
    simp only [List.mem_cons] at hc
    simp only [Bool.or_eq_true, decide_eq_true_eq] at hesc
    rcases hc with rfl | rfl | hc
    · decide
    · rcases hesc with ((((((q | q) | q) | q) | q) | q) | q) | q <;> subst q <;> decide
    · exact hmem c hc
  | case9 e cs' hneu hesc hp ih1 ih =>
    intro body rest h
    rw [parseStr.eq_def] at h
    simp [hesc, hp, hneu] at h
  | case10 e cs' hneu hnesc ih1 =>
    intro body rest h
    rw [parseStr.eq_def] at h
    simp [hneu, hnesc] at h
  | case11 e cs' hq hbs hlt =>
    intro body rest h
    rw [parseStr.eq_def] at h
    simp [hq, hbs, hlt] at h
  | case12 e cs' hq hbs hge body0 rest0 hp ih =>
    intro body rest h
    rw [parseStr.eq_def] at h
    simp only [if_neg hq, if_neg hbs, if_neg hge, hp, Option.some.injEq,
      Prod.mk.injEq] at h
    obtain ⟨hb, hr⟩ := h
    subst hb; subst hr
    obtain ⟨hcs, hmem⟩ := ih body0 rest0 hp
    subst hcs
    refine ⟨by simp, ?_⟩
    intro c hc
    simp only [List.mem_cons] at hc
    rcases hc with rfl | hc
    · omega
    · exact hmem c hc
  | case13 e cs' hq hbs hge hp ih =>
    intro body rest h
    rw [parseStr.eq_def] at h
    simp [hq, hbs, hge, hp] at h



theorem numChar_of_isDigit {c : Char} (h : c.isDigit = true) : numChar c = true := by
  simp [numChar, h]

theorem parseIntPart_inv : ∀ cs ip rest, parseIntPart cs = some (ip, rest) →
    cs = ip ++ rest ∧ ip ≠ [] ∧ ∀ c ∈ ip, c.isDigit = true := by
  intro cs ip rest h
  unfold parseIntPart at h
  split at h
  · exact Option.noConfusion h
  · rename_i c cs'
    split at h
    · rename_i h0
      simp only [Option.some.injEq, Prod.mk.injEq] at h
      obtain ⟨rfl, rfl⟩ := h
      refine ⟨rfl, by simp, ?_⟩
      intro x hx
      simp only [List.mem_singleton] at hx
      subst hx
      subst h0
      decide
    · split at h
      · rename_i hd
        simp only [Option.some.injEq, Prod.mk.injEq] at h
        obtain ⟨rfl, rfl⟩ := h
        refine ⟨by simp [List.takeWhile_append_dropWhile], by simp, ?_⟩
        intro x hx
        simp only [List.mem_cons] at hx
        rcases hx with rfl | hx
        · exact hd
        · exact List.mem_takeWhile_imp hx
      · exact Option.noConfusion h

theorem parseFracPart_inv : ∀ cs fp rest, parseFracPart cs = some (fp, rest) →
    cs = fp ++ rest ∧ ∀ c ∈ fp, numChar c = true := by
  intro cs fp rest h
  unfold parseFracPart at h
  split at h
  · simp only [Option.some.injEq, Prod.mk.injEq] at h
    obtain ⟨rfl, rfl⟩ := h
    exact ⟨rfl, by simp⟩
  · rename_i c cs'
    split at h
    · rename_i hdot
      split at h
      · rename_i d tail
        split at h
        · rename_i hd
          simp only [Option.some.injEq, Prod.mk.injEq] at h
          obtain ⟨rfl, rfl⟩ := h
          refine ⟨by simp [List.takeWhile_append_dropWhile], ?_⟩
          intro x hx
          simp only [List.mem_cons] at hx
          rcases hx with rfl | hx
          · simp [numChar, hdot]
          · exact numChar_of_isDigit (List.mem_takeWhile_imp hx)
        · exact Option.noConfusion h
      · exact Option.noConfusion h
    · simp only [Option.some.injEq, Prod.mk.injEq] at h
      obtain ⟨rfl, rfl⟩ := h
      exact ⟨rfl, by simp⟩

theorem parseExpPart_inv : ∀ cs ep rest, parseExpPart cs = some (ep, rest) →
    cs = ep ++ rest ∧ ∀ c ∈ ep, numChar c = true := by
  intro cs ep rest h
  unfold parseExpPart at h
  split at h
  · simp only [Option.some.injEq, Prod.mk.injEq] at h
    obtain ⟨rfl, rfl⟩ := h
    exact ⟨rfl, by simp⟩
  · rename_i c cs'
    split at h
    · rename_i he
      simp only [Bool.or_eq_true, decide_eq_true_eq] at he
      split at h
      · rename_i s tl
        split at h
        · rename_i hs
          simp only [Bool.or_eq_true, decide_eq_true_eq] at hs
          split at h
          · rename_i d tl2
            split at h
            · rename_i hd
              simp only [Option.some.injEq, Prod.mk.injEq] at h
              obtain ⟨rfl, rfl⟩ := h
              refine ⟨by simp [List.takeWhile_append_dropWhile], ?_⟩
              intro x hx
              simp only [List.mem_cons] at hx
              rcases hx with rfl | rfl | hx
              · rcases he with he | he <;> simp [numChar, he]
              · rcases hs with hs | hs <;> simp [numChar, hs]
              · exact numChar_of_isDigit (List.mem_takeWhile_imp hx)
            · exact Option.noConfusion h
          · exact Option.noConfusion h
        · split at h
          · rename_i hd
            simp only [Option.some.injEq, Prod.mk.injEq] at h
            obtain ⟨rfl, rfl⟩ := h
            refine ⟨by simp [List.takeWhile_append_dropWhile], ?_⟩
            intro x hx
            simp only [List.mem_cons] at hx
            rcases hx with rfl | hx
            · rcases he with he | he <;> simp [numChar, he]
            · exact numChar_of_isDigit (List.mem_takeWhile_imp hx)
          · exact Option.noConfusion h
      · exact Option.noConfusion h
    · simp only [Option.some.injEq, Prod.mk.injEq] at h
      obtain ⟨rfl, rfl⟩ := h
      exact ⟨rfl, by simp⟩

theorem parseNumCore_inv : ∀ sgn cs1 lex rest, (∀ c ∈ sgn, numChar c = true) →
    parseNumCore sgn cs1 = some (lex, rest) →
    sgn ++ cs1 = lex ++ rest ∧ lex ≠ [] ∧ ∀ c ∈ lex, numChar c = true := by
  intro sgn cs1 lex rest hsgn h
  unfold parseNumCore at h
  split at h
  · exact Option.noConfusion h
  · rename_i ip cs2 hip
    split at h
    · exact Option.noConfusion h
    · rename_i fp cs3 hfp
      split at h
      · exact Option.noConfusion h
      · rename_i ep cs4 hep
        simp only [Option.some.injEq, Prod.mk.injEq] at h
        obtain ⟨rfl, rfl⟩ := h
        obtain ⟨hi1, hine, hi3⟩ := parseIntPart_inv cs1 ip cs2 hip
        obtain ⟨hf1, hf3⟩ := parseFracPart_inv cs2 fp cs3 hfp
        obtain ⟨he1, he3⟩ := parseExpPart_inv cs3 ep cs4 hep
        refine ⟨?_, ?_, ?_⟩
        · subst hi1; subst hf1; subst he1
          simp [List.append_assoc]
        · intro hnil
          simp only [List.append_eq_nil] at hnil
          exact hine hnil.1.1.2
        · intro x hx
          simp only [List.mem_append] at hx
          rcases hx with ((hx | hx) | hx) | hx
          · exact hsgn x hx
          · exact numChar_of_isDigit (hi3 x hx)
          · exact hf3 x hx
          · exact he3 x hx

theorem parseNum_inv : ∀ cs lex rest, parseNum cs = some (lex, rest) →
    cs = lex ++ rest ∧ lex ≠ [] ∧ ∀ c ∈ lex, numChar c = true := by
  intro cs lex rest h
  unfold parseNum at h
  split at h
  · rename_i c r
    split at h
    · rename_i hminus
      obtain ⟨h1, h2, h3⟩ := parseNumCore_inv [c] r lex rest
        (by intro x hx; simp only [List.mem_singleton] at hx; subst hx; subst hminus; decide) h
      exact ⟨by rw [← h1]; rfl, h2, h3⟩
    · obtain ⟨h1, h2, h3⟩ := parseNumCore_inv [] (c :: r) lex rest (by simp) h
      exact ⟨by rw [← h1]; rfl, h2, h3⟩
  · exact Option.noConfusion h



theorem head?_mem {c : Char} : ∀ {l : List Char}, l.head? = some c → c ∈ l := by
  intro l h
  cases l with
  | nil => exact Option.noConfusion h
  | cons x xs =>
    simp only [List.head?_cons, Option.some.injEq] at h
    subst h
    exact List.mem_cons_self x xs

theorem head?_append_of_ne_nil {a b : List Char} (h : a ≠ []) :
    (a ++ b).head? = a.head? := by
  cases a with
  | nil => exact absurd rfl h
  | cons x xs => rfl

theorem getLast?_append_of_ne_nil {a b : List Char} (h : b ≠ []) :
    (a ++ b).getLast? = b.getLast? := by
  rw [List.getLast?_append]
  cases hb : b.getLast? with
  | none =>
    rw [List.getLast?_eq_none_iff] at hb
    exact absurd hb h
  | some y => rfl

theorem noNlBt_tail {c : Char} {cs : List Char} (h : noNlBt (c :: cs) = true) :
    noNlBt cs = true := by
  cases cs with
  | nil => rfl
  | cons b r =>
    simp only [noNlBt, Bool.and_eq_true] at h
    exact h.2

theorem noNlBt_pair {a b : Char} {r : List Char} (h : noNlBt (a :: b :: r) = true) :
    ¬(a = '\n' ∧ b = btChar) := by
  simp only [noNlBt, Bool.and_eq_true, Bool.not_eq_true', Bool.and_eq_false_iff,
    decide_eq_false_iff_not] at h
  intro hc
  rcases h.1 with h1 | h1
  · exact h1 hc.1
  · exact h1 hc.2

theorem noNlBt_cons {a : Char} {cs : List Char}
    (hpair : ∀ b, cs.head? = some b → ¬(a = '\n' ∧ b = btChar))
    (ht : noNlBt cs = true) : noNlBt (a :: cs) = true := by
  cases cs with
  | nil => rfl
  | cons b r =>
    have hp := hpair b rfl
    simp only [noNlBt, Bool.and_eq_true, Bool.not_eq_true', Bool.and_eq_false_iff,
      decide_eq_false_iff_not]
    refine ⟨?_, ht⟩
    rcases Decidable.em (a = '\n') with ha | ha
    · rcases Decidable.em (b = btChar) with hb | hb
      · exact absurd ⟨ha, hb⟩ hp
      · exact Or.inr hb
    · exact Or.inl ha

theorem noNlBt_append_of_head : ∀ {a b : List Char}, noNlBt a = true → noNlBt b = true →
    (∀ y, b.head? = some y → y ≠ btChar) → noNlBt (a ++ b) = true := by
  intro a
  induction a with
  | nil =>
    intro b _ hb _
    simpa using hb
  | cons x a' ih =>
    intro b ha hb hh
    rw [List.cons_append]
    apply noNlBt_cons
    · intro y hy hxy
      cases a' with
      | nil =>
        simp only [List.nil_append] at hy
        exact hh y hy hxy.2
      | cons z a'' =>
        simp only [List.cons_append, List.head?_cons, Option.some.injEq] at hy
        subst hy
        exact noNlBt_pair ha hxy
    · exact ih (noNlBt_tail ha) hb hh

theorem noNlBt_of_no_bt : ∀ {cs : List Char}, (∀ c ∈ cs, c ≠ btChar) → noNlBt cs = true := by
  intro cs
  induction cs with
  | nil => intro _; rfl
  | cons x cs' ih =>
    intro h
    apply noNlBt_cons
    · intro b hb hc
      exact h b (List.mem_cons_of_mem x (head?_mem hb)) hc.2
    · exact ih fun c hc => h c (List.mem_cons_of_mem x hc)

theorem noNlBt_of_no_nl : ∀ {cs : List Char}, (∀ c ∈ cs, c ≠ '\n') → noNlBt cs = true := by
  intro cs
  induction cs with
  | nil => intro _; rfl
  | cons x cs' ih =>
    intro h
    apply noNlBt_cons
    · intro b _ hc
      exact h x (List.mem_cons_self x cs') hc.1
    · exact ih fun c hc => h c (List.mem_cons_of_mem x hc)

theorem noNlBt_append_right : ∀ {a b : List Char}, noNlBt (a ++ b) = true → noNlBt b = true := by
  intro a
  induction a with
  | nil => intro b h; simpa using h
  | cons x a' ih =>
    intro b h
    rw [List.cons_append] at h
    exact ih (noNlBt_tail h)



theorem ne_of_pred_false {c d : Char} {p : Char → Bool}
    (hc : p c = false) (hd : p d = true) : c ≠ d := by
  intro he
  rw [he, hd] at hc
  exact Bool.noConfusion hc

theorem isJsonWs_false_of_isJsWs_false {c : Char} (h : isJsWs c = false) :
    isJsonWs c = false := by
  cases hj : isJsonWs c with
  | false => rfl
  | true => rw [isJsWs_of_isJsonWs hj] at h; exact Bool.noConfusion h

theorem valueStart_facts {c : Char} (h : isValueStart c = true) :
    isJsWs c = false ∧ c ≠ btChar := by
  simp only [isValueStart, Bool.or_eq_true, decide_eq_true_eq] at h
  rcases h with (((((((h | h) | h) | h) | h) | h) | h) | h)
  · subst h; exact ⟨by decide, by decide⟩
  · subst h; exact ⟨by decide, by decide⟩
  · subst h; exact ⟨by decide, by decide⟩
  · subst h; exact ⟨by decide, by decide⟩
  · obtain ⟨b1, b2⟩ := le_toNat_of_isDigit h
    constructor
    · simp only [isJsWs, Bool.or_eq_false_iff, Bool.and_eq_false_iff,
        decide_eq_false_iff_not]
      omega
    · intro he
      have : c.toNat = 96 := by rw [he]; decide
      omega
  · subst h; exact ⟨by decide, by decide⟩
  · subst h; exact ⟨by decide, by decide⟩
  · subst h; exact ⟨by decide, by decide⟩

theorem numChar_facts {c : Char} (h : numChar c = true) :
    isJsWs c = false ∧ c ≠ btChar := by
  simp only [numChar, Bool.or_eq_true, decide_eq_true_eq] at h
  rcases h with ((((h | h) | h) | h) | h) | h
  · subst h; exact ⟨by decide, by decide⟩
  · subst h; exact ⟨by decide, by decide⟩
  · subst h; exact ⟨by decide, by decide⟩
  · subst h; exact ⟨by decide, by decide⟩
  · subst h; exact ⟨by decide, by decide⟩
  · obtain ⟨b1, b2⟩ := le_toNat_of_isDigit h
    constructor
    · simp only [isJsWs, Bool.or_eq_false_iff, Bool.and_eq_false_iff,
        decide_eq_false_iff_not]
      omega
    · intro he
      have : c.toNat = 96 := by rw [he]; decide
      omega

theorem jsWs_false_ne_nl {c : Char} (h : isJsWs c = false) : c ≠ '\n' :=
  ne_of_pred_false h (by decide)

theorem jsonWs_ne_bt {c : Char} (h : isJsonWs c = true) : c ≠ btChar := by
  intro he
  rw [he] at h
  have hf : isJsonWs btChar = false := by decide
  rw [hf] at h
  exact Bool.noConfusion h

theorem dropWhile_append_of_all {p : Char → Bool} : ∀ {a b : List Char},
    (∀ c ∈ a, p c = true) → (a ++ b).dropWhile p = b.dropWhile p := by
  intro a
  induction a with
  | nil => intro b _; rfl
  | cons x a' ih =>
    intro b h
    rw [List.cons_append, List.dropWhile_cons, if_pos (h x (List.mem_cons_self x a'))]
    exact ih fun c hc => h c (List.mem_cons_of_mem x hc)

theorem dropTrail_append_of_all {p : Char → Bool} {a b : List Char}
    (hb : ∀ c ∈ b, p c = true) : dropTrail p (a ++ b) = dropTrail p a := by
  unfold dropTrail
  rw [List.reverse_append,
    dropWhile_append_of_all (by intro c hc; exact hb c (List.mem_reverse.mp hc))]

theorem dropTrail_decomp (p : Char → Bool) (cs : List Char) :
    ∃ w, cs = dropTrail p cs ++ w ∧ ∀ c ∈ w, p c = true := by
  refine ⟨(cs.reverse.takeWhile p).reverse, ?_, ?_⟩
  · conv_lhs => rw [← List.reverse_reverse cs,
      ← List.takeWhile_append_dropWhile (p := p) (l := cs.reverse)]
    rw [List.reverse_append]
    rfl
  · intro c hc
    rw [List.mem_reverse] at hc
    exact List.mem_takeWhile_imp hc

theorem trim_decomp (p : Char → Bool) (cs : List Char) :
    ∃ w1 w2, cs = w1 ++ (dropTrail p (cs.dropWhile p) ++ w2) ∧
      (∀ c ∈ w1, p c = true) ∧ (∀ c ∈ w2, p c = true) := by
  obtain ⟨w2, hmid, hw2⟩ := dropTrail_decomp p (cs.dropWhile p)
  refine ⟨cs.takeWhile p, w2, ?_, ?_, hw2⟩
  · conv_lhs => rw [← List.takeWhile_append_dropWhile (p := p) (l := cs), hmid]
  · intro c hc
    exact List.mem_takeWhile_imp hc



theorem getLast?_mem : ∀ {l : List Char} {c : Char}, l.getLast? = some c → c ∈ l := by
  intro l
  induction l with
  | nil => intro c h; exact Option.noConfusion h
  | cons x xs ih =>
    intro c h
    cases xs with
    | nil =>
      simp only [List.getLast?_singleton, Option.some.injEq] at h
      subst h
      exact List.mem_cons_self x []
    | cons y ys =>
      rw [List.getLast?_cons_cons] at h
      exact List.mem_cons_of_mem x (ih h)

theorem exists_cons_of_ne_nil {l : List Char} (h : l ≠ []) : ∃ x t, l = x :: t := by
  cases l with
  | nil => exact absurd rfl h
  | cons x t => exact ⟨x, t, rfl⟩

theorem ge32_ne_nl {c : Char} (h : 32 ≤ c.toNat) : c ≠ '\n' := by
  intro he
  rw [he] at h
  exact absurd h (by decide)

theorem valueStart_of_numStart {c : Char} (h : (decide (c = '-') || c.isDigit) = true) :
    isValueStart c = true := by
  simp only [Bool.or_eq_true, decide_eq_true_eq] at h
  rcases h with h | h
  · simp [isValueStart, h]
  · simp [isValueStart, h]

theorem ConsumedV_mk4 {pre : List Char} {hc lc : Char}
    (hne : pre ≠ []) (hh : pre.head? = some hc) (hvs : isValueStart hc = true)
    (hl : pre.getLast? = some lc) (hws : isJsWs lc = false)
    (hbt : noNlBt pre = true) : ConsumedV pre := by
  refine ⟨hne, ?_, ?_, hbt⟩
  · intro x hx
    rw [hh] at hx
    injection hx with hx
    exact hx ▸ hvs
  · intro x hx
    rw [hl] at hx
    injection hx with hx
    exact hx ▸ hws

theorem consumedV_head_ne_bt {pre : List Char} (h : ConsumedV pre) :
    ∀ y, pre.head? = some y → y ≠ btChar :=
  fun y hy => (valueStart_facts (h.2.1 y hy)).2

theorem consumedE_head_ne_bt {pre : List Char} (h : ConsumedE pre) :
    ∀ y, pre.head? = some y → y ≠ btChar :=
  fun y hy => (valueStart_facts (h.2.1 y hy)).2

theorem consumedM_head_ne_bt {pre : List Char} (h : ConsumedM pre) :
    ∀ y, pre.head? = some y → y ≠ btChar := by
  intro y hy
  rw [h.2.1] at hy
  injection hy with hy
  subst hy
  decide

theorem head_ws_append_ne_bt {w rest : List Char}
    (hw : ∀ c ∈ w, isJsonWs c = true)
    (hr : ∀ y, rest.head? = some y → y ≠ btChar) :
    ∀ y, (w ++ rest).head? = some y → y ≠ btChar := by
  cases w with
  | nil => simpa using hr
  | cons z w' =>
    intro y hy
    rw [List.cons_append, List.head?_cons] at hy
    injection hy with hy
    exact hy ▸ jsonWs_ne_bt (hw z (List.mem_cons_self z w'))

theorem head_cons_ne_bt {x : Char} {rest : List Char} (hx : x ≠ btChar) :
    ∀ y, (x :: rest).head? = some y → y ≠ btChar := by
  intro y hy
  rw [List.head?_cons] at hy
  injection hy with hy
  exact hy ▸ hx

theorem noNlBt_ws_append {w rest : List Char} (hw : ∀ c ∈ w, isJsonWs c = true)
    (hr : noNlBt rest = true) (hh : ∀ y, rest.head? = some y → y ≠ btChar) :
    noNlBt (w ++ rest) = true :=
  noNlBt_append_of_head (noNlBt_of_no_bt fun c hc => jsonWs_ne_bt (hw c hc)) hr hh

theorem noNlBt_punct_cons {x : Char} {rest : List Char} (hx : x ≠ '\n')
    (hr : noNlBt rest = true) : noNlBt (x :: rest) = true :=
  noNlBt_cons (fun _ _ hc => hx hc.1) hr

theorem skipWsL_decomp (r : List Char) :
    r = r.takeWhile isJsonWs ++ skipWsL r ∧ ∀ c ∈ r.takeWhile isJsonWs, isJsonWs c = true :=
  ⟨(List.takeWhile_append_dropWhile (p := isJsonWs) (l := r)).symm,
   fun _ hc => List.mem_takeWhile_imp hc⟩



theorem step_elems (fuel : Nat)
    (ihv : ∀ cs v r, parseVal fuel cs = some (v, r) → ∃ pre, cs = pre ++ r ∧ ConsumedV pre)
    (ihe : ∀ cs xs r, parseElems fuel cs = some (xs, r) → ∃ pre, cs = pre ++ r ∧ ConsumedE pre) :
    ∀ cs xs r, parseElems (fuel + 1) cs = some (xs, r) →
      ∃ pre, cs = pre ++ r ∧ ConsumedE pre := by
  intro cs xs r h
  simp only [parseElems] at h
  split at h
  · exact Option.noConfusion h
  · rename_i v r1 hval
    split at h
    · exact Option.noConfusion h
    · rename_i d r2 hskip
      split at h
      · rename_i hcomma
        subst hcomma
        split at h
        · rename_i vs r3 helems
          simp only [Option.some.injEq, Prod.mk.injEq] at h
          obtain ⟨hxs, hrr⟩ := h
          subst hxs
          rw [← hrr]
          obtain ⟨preV, hcsV, hCV⟩ := ihv cs v r1 hval
          obtain ⟨preE, hr2E, hCE⟩ := ihe (skipWsL r2) vs r3 helems
          obtain ⟨preEx, preEt, hpreEcons⟩ := exists_cons_of_ne_nil hCE.1
          obtain ⟨w1, hr1d, hw1⟩ :
              ∃ w, r1 = w ++ (',' :: r2) ∧ ∀ c ∈ w, isJsonWs c = true :=
            ⟨r1.takeWhile isJsonWs, by
                conv_lhs => rw [(skipWsL_decomp r1).1]
                rw [hskip], (skipWsL_decomp r1).2⟩
          obtain ⟨w2, hr2d, hw2⟩ :
              ∃ w, r2 = w ++ (preE ++ r3) ∧ ∀ c ∈ w, isJsonWs c = true :=
            ⟨r2.takeWhile isJsonWs, by
                conv_lhs => rw [(skipWsL_decomp r2).1]
                rw [hr2E], (skipWsL_decomp r2).2⟩
          have hEbt : ∀ y, preE.head? = some y → y ≠ btChar := consumedE_head_ne_bt hCE
          refine ⟨preV ++ (w1 ++ (',' :: (w2 ++ preE))), ?_, ?_, ?_, ?_, ?_⟩
          · rw [hcsV, hr1d, hr2d]
            simp [List.append_assoc]
          · simp [hCV.1]
          · intro y hy
            rw [head?_append_of_ne_nil hCV.1] at hy
            exact hCV.2.1 y hy
          · rw [getLast?_append_of_ne_nil (by simp),
              getLast?_append_of_ne_nil (by simp),
              ← List.singleton_append,
              getLast?_append_of_ne_nil (by simp [hpreEcons]),
              getLast?_append_of_ne_nil (by simp [hpreEcons])]
            exact hCE.2.2.1
          · apply noNlBt_append_of_head hCV.2.2.2
            · apply noNlBt_ws_append hw1
              · apply noNlBt_punct_cons (by decide)
                exact noNlBt_ws_append hw2 hCE.2.2.2 hEbt
              · exact head_cons_ne_bt (by decide)
            · exact head_ws_append_ne_bt hw1 (head_cons_ne_bt (by decide))
        · exact Option.noConfusion h
      · split at h
        · rename_i hcomma hbr
          subst hbr
          simp only [Option.some.injEq, Prod.mk.injEq] at h
          obtain ⟨hxs, hrr⟩ := h
          subst hxs
          rw [← hrr]
          obtain ⟨preV, hcsV, hCV⟩ := ihv cs v r1 hval
          obtain ⟨w1, hr1d, hw1⟩ :
              ∃ w, r1 = w ++ (']' :: r2) ∧ ∀ c ∈ w, isJsonWs c = true :=
            ⟨r1.takeWhile isJsonWs, by
                conv_lhs => rw [(skipWsL_decomp r1).1]
                rw [hskip], (skipWsL_decomp r1).2⟩
          refine ⟨preV ++ (w1 ++ [']']), ?_, ?_, ?_, ?_, ?_⟩
          · rw [hcsV, hr1d]
            simp [List.append_assoc]
          · simp [hCV.1]
          · intro y hy
            rw [head?_append_of_ne_nil hCV.1] at hy
            exact hCV.2.1 y hy
          · rw [getLast?_append_of_ne_nil (by simp),
              getLast?_append_of_ne_nil (by simp)]
            rfl
          · apply noNlBt_append_of_head hCV.2.2.2
            · apply noNlBt_ws_append hw1
              · decide
              · exact head_cons_ne_bt (by decide)
            · exact head_ws_append_ne_bt hw1 (head_cons_ne_bt (by decide))
        · exact Option.noConfusion h



theorem stripLit_inv : ∀ lit cs r, stripLit lit cs = some r → cs = lit ++ r := by
  intro lit
  induction lit with
  | nil =>
    intro cs r h
    simp only [stripLit, Option.some.injEq] at h
    simp [h]
  | cons l ls ih =>
    intro cs r h
    cases cs with
    | nil => simp [stripLit] at h
    | cons c cs' =>
      simp only [stripLit] at h
      by_cases hlc : l = c
      · rw [if_pos hlc] at h
        rw [List.cons_append, ← ih cs' r h, hlc]
      · rw [if_neg hlc] at h
        exact Option.noConfusion h

theorem step_val (fuel : Nat)
    (ihe : ∀ cs xs r, parseElems fuel cs = some (xs, r) → ∃ pre, cs = pre ++ r ∧ ConsumedE pre)
    (ihm : ∀ cs ms r, parseMembers fuel cs = some (ms, r) → ∃ pre, cs = pre ++ r ∧ ConsumedM pre) :
    ∀ cs v r, parseVal (fuel + 1) cs = some (v, r) →
      ∃ pre, cs = pre ++ r ∧ ConsumedV pre := by
  intro cs v r h
  cases cs with
  | nil =>
    simp only [parseVal] at h
    exact Option.noConfusion h
  | cons c cs' =>
    simp only [parseVal] at h
    split at h
    · rename_i hn
      subst hn
      split at h
      · rename_i r0 hstrip
        simp only [Option.some.injEq, Prod.mk.injEq] at h
        obtain ⟨hv, hrr⟩ := h
        rw [← hrr]
        have hcs := stripLit_inv _ _ _ hstrip
        refine ⟨['n', 'u', 'l', 'l'], ?_, ?_⟩
        · rw [hcs]; rfl
        · exact ConsumedV_mk4 (by decide) rfl (by decide) rfl (by decide) (by decide)
      · exact Option.noConfusion h
    · split at h
      · rename_i ht
        subst ht
        split at h
        · rename_i r0 hstrip
          simp only [Option.some.injEq, Prod.mk.injEq] at h
          obtain ⟨hv, hrr⟩ := h
          rw [← hrr]
          have hcs := stripLit_inv _ _ _ hstrip
          refine ⟨['t', 'r', 'u', 'e'], ?_, ?_⟩
          · rw [hcs]; rfl
          · exact ConsumedV_mk4 (by decide) rfl (by decide) rfl (by decide) (by decide)
        · exact Option.noConfusion h
      · split at h
        · rename_i hf
          subst hf
          split at h
          · rename_i r0 hstrip
            simp only [Option.some.injEq, Prod.mk.injEq] at h
            obtain ⟨hv, hrr⟩ := h
            rw [← hrr]
            have hcs := stripLit_inv _ _ _ hstrip
            refine ⟨['f', 'a', 'l', 's', 'e'], ?_, ?_⟩
            · rw [hcs]; rfl
            · exact ConsumedV_mk4 (by decide) rfl (by decide) rfl (by decide) (by decide)
          · exact Option.noConfusion h
        · split at h
          · rename_i hq
            subst hq
            split at h
            · rename_i body rest0 hstr
              simp only [Option.some.injEq, Prod.mk.injEq] at h
              obtain ⟨hv, hrr⟩ := h
              rw [← hrr]
              obtain ⟨hcs, hge⟩ := parseStr_inv _ _ _ hstr
              have hlast : ('"' :: (body ++ ['"'])).getLast? = some '"' := by
                rw [show ('"' :: (body ++ ['"'])) = (('"' :: body) ++ ['"']) from by simp,
                  getLast?_append_of_ne_nil (by simp)]
                rfl
              refine ⟨'"' :: (body ++ ['"']), ?_, ?_⟩
              · rw [hcs]; simp
              · refine ConsumedV_mk4 (by simp) rfl (by decide) hlast (by decide) ?_
                apply noNlBt_of_no_nl
                intro x hx
                simp only [List.mem_cons, List.mem_append, List.mem_singleton] at hx
                rcases hx with rfl | hx | rfl | h0
                · decide
                · exact ge32_ne_nl (hge x hx)
                · decide
                · cases h0
            · exact Option.noConfusion h
          · split at h
            · rename_i hbrk
              subst hbrk
              split at h
              · exact Option.noConfusion h
              · rename_i d r0 hskip
                split at h
                · rename_i hd
                  subst hd
                  simp only [Option.some.injEq, Prod.mk.injEq] at h
                  obtain ⟨hv, hrr⟩ := h
                  rw [← hrr]
                  obtain ⟨w, hcsw, hw⟩ :
                      ∃ w, cs' = w ++ (']' :: r0) ∧ ∀ c ∈ w, isJsonWs c = true :=
                    ⟨cs'.takeWhile isJsonWs, by
                        conv_lhs => rw [(skipWsL_decomp cs').1]
                        rw [hskip], (skipWsL_decomp cs').2⟩
                  have hlast : ('[' :: (w ++ [']'])).getLast? = some ']' := by
                    rw [show ('[' :: (w ++ [']'])) = (('[' :: w) ++ [']']) from by simp,
                      getLast?_append_of_ne_nil (by simp)]
                    rfl
                  refine ⟨'[' :: (w ++ [']']), ?_, ?_⟩
                  · rw [hcsw]; simp
                  · exact ConsumedV_mk4 (by simp) rfl (by decide) hlast (by decide)
                      (noNlBt_punct_cons (by decide)
                        (noNlBt_ws_append hw (by decide) (head_cons_ne_bt (by decide))))
                · split at h
                  · rename_i xs rr helems
                    simp only [Option.some.injEq, Prod.mk.injEq] at h
                    obtain ⟨hv, hrr⟩ := h
                    rw [← hrr]
                    obtain ⟨preE, hdE, hCE⟩ := ihe (d :: r0) xs rr helems
                    obtain ⟨preEx, preEt, hpreEcons⟩ := exists_cons_of_ne_nil hCE.1
                    obtain ⟨w, hcsw, hw⟩ :
                        ∃ w, cs' = w ++ (d :: r0) ∧ ∀ c ∈ w, isJsonWs c = true :=
                      ⟨cs'.takeWhile isJsonWs, by
                          conv_lhs => rw [(skipWsL_decomp cs').1]
                          rw [hskip], (skipWsL_decomp cs').2⟩
                    have hEbt := consumedE_head_ne_bt hCE
                    have hlast : ('[' :: (w ++ preE)).getLast? = some ']' := by
                      rw [show ('[' :: (w ++ preE)) = (('[' :: w) ++ preE) from by simp,
                        getLast?_append_of_ne_nil (by simp [hpreEcons])]
                      exact hCE.2.2.1
                    refine ⟨'[' :: (w ++ preE), ?_, ?_⟩
                    · rw [hcsw, hdE]; simp
                    · exact ConsumedV_mk4 (by simp) rfl (by decide) hlast (by decide)
                        (noNlBt_punct_cons (by decide)
                          (noNlBt_ws_append hw hCE.2.2.2 hEbt))
                  · exact Option.noConfusion h
            · split at h
              · rename_i hbrc
                subst hbrc
                split at h
                · exact Option.noConfusion h
                · rename_i d r0 hskip
                  split at h
                  · rename_i hd
                    subst hd
                    simp only [Option.some.injEq, Prod.mk.injEq] at h
                    obtain ⟨hv, hrr⟩ := h
                    rw [← hrr]
                    obtain ⟨w, hcsw, hw⟩ :
                        ∃ w, cs' = w ++ ('}' :: r0) ∧ ∀ c ∈ w, isJsonWs c = true :=
                      ⟨cs'.takeWhile isJsonWs, by
                          conv_lhs => rw [(skipWsL_decomp cs').1]
                          rw [hskip], (skipWsL_decomp cs').2⟩
                    have hlast : ('{' :: (w ++ ['}'])).getLast? = some '}' := by
                      rw [show ('{' :: (w ++ ['}'])) = (('{' :: w) ++ ['}']) from by simp,
                        getLast?_append_of_ne_nil (by simp)]
                      rfl
                    refine ⟨'{' :: (w ++ ['}']), ?_, ?_⟩
                    · rw [hcsw]; simp
                    · exact ConsumedV_mk4 (by simp) rfl (by decide) hlast (by decide)
                        (noNlBt_punct_cons (by decide)
                          (noNlBt_ws_append hw (by decide) (head_cons_ne_bt (by decide))))
                  · split at h
                    · rename_i ms rr hmems
                      simp only [Option.some.injEq, Prod.mk.injEq] at h
                      obtain ⟨hv, hrr⟩ := h
                      rw [← hrr]
                      obtain ⟨preM, hdM, hCM⟩ := ihm (d :: r0) ms rr hmems
                      obtain ⟨preMx, preMt, hpreMcons⟩ := exists_cons_of_ne_nil hCM.1
                      obtain ⟨w, hcsw, hw⟩ :
                          ∃ w, cs' = w ++ (d :: r0) ∧ ∀ c ∈ w, isJsonWs c = true :=
                        ⟨cs'.takeWhile isJsonWs, by
                            conv_lhs => rw [(skipWsL_decomp cs').1]
                            rw [hskip], (skipWsL_decomp cs').2⟩
                      have hMbt := consumedM_head_ne_bt hCM
                      have hlast : ('{' :: (w ++ preM)).getLast? = some '}' := by
                        rw [show ('{' :: (w ++ preM)) = (('{' :: w) ++ preM) from by simp,
                          getLast?_append_of_ne_nil (by simp [hpreMcons])]
                        exact hCM.2.2.1
                      refine ⟨'{' :: (w ++ preM), ?_, ?_⟩
                      · rw [hcsw, hdM]; simp
                      · exact ConsumedV_mk4 (by simp) rfl (by decide) hlast (by decide)
                          (noNlBt_punct_cons (by decide)
                            (noNlBt_ws_append hw hCM.2.2.2 hMbt))
                    · exact Option.noConfusion h
              · split at h
                · rename_i hnum
                  split at h
                  · rename_i lex rest0 hnumres
                    simp only [Option.some.injEq, Prod.mk.injEq] at h
                    obtain ⟨hv, hrr⟩ := h
                    rw [← hrr]
                    obtain ⟨hcs, hlexne, hlexmem⟩ := parseNum_inv _ _ _ hnumres
                    obtain ⟨hd, tl, hlexcons⟩ := exists_cons_of_ne_nil hlexne
                    have hhd : hd = c := by
                      rw [hlexcons, List.cons_append] at hcs
                      exact (List.cons.injEq c cs' hd (tl ++ rest0)).mp hcs |>.1.symm
                    have hhead : lex.head? = some c := by
                      rw [hlexcons, List.head?_cons, hhd]
                    obtain ⟨lc, hgl⟩ : ∃ lc, lex.getLast? = some lc := by
                      cases hgl : lex.getLast? with
                      | none => exact absurd (List.getLast?_eq_none_iff.mp hgl) hlexne
                      | some lc => exact ⟨lc, rfl⟩
                    refine ⟨lex, hcs, ?_⟩
                    refine ConsumedV_mk4 hlexne hhead (valueStart_of_numStart hnum) hgl
                      (numChar_facts (hlexmem lc (getLast?_mem hgl))).1 ?_
                    apply noNlBt_of_no_bt
                    intro x hx
                    exact (numChar_facts (hlexmem x hx)).2
                  · exact Option.noConfusion h
                · exact Option.noConfusion h



theorem step_members (fuel : Nat)
    (ihv : ∀ cs v r, parseVal fuel cs = some (v, r) → ∃ pre, cs = pre ++ r ∧ ConsumedV pre)
    (ihm : ∀ cs ms r, parseMembers fuel cs = some (ms, r) → ∃ pre, cs = pre ++ r ∧ ConsumedM pre) :
    ∀ cs ms r, parseMembers (fuel + 1) cs = some (ms, r) →
      ∃ pre, cs = pre ++ r ∧ ConsumedM pre := by
  intro cs ms r h
  simp only [parseMembers] at h
  split at h
  · exact Option.noConfusion h
  · rename_i c cs' heq
    split at h
    · rename_i hq
      subst hq
      split at h
      · exact Option.noConfusion h
      · rename_i key r1 hkey
        split at h
        · exact Option.noConfusion h
        · rename_i d r2 hskip1
          split at h
          · rename_i hcolon
            subst hcolon
            split at h
            · exact Option.noConfusion h
            · rename_i v r3 hval
              split at h
              · exact Option.noConfusion h
              · rename_i e r4 hskip3
                split at h
                · rename_i hcm
                  subst hcm
                  split at h
                  · rename_i ms0 r5 hmems
                    simp only [Option.some.injEq, Prod.mk.injEq] at h
                    obtain ⟨hms, hrr⟩ := h
                    rw [← hrr]
                    obtain ⟨hcsk, hkeyge⟩ := parseStr_inv _ _ _ hkey
                    obtain ⟨preV, hr2V, hCV⟩ := ihv (skipWsL r2) v r3 hval
                    obtain ⟨preM, hr4M, hCM⟩ := ihm (skipWsL r4) ms0 r5 hmems
                    obtain ⟨preMx, preMt, hpreMcons⟩ := exists_cons_of_ne_nil hCM.1
                    obtain ⟨w1, hr1d, hw1⟩ :
                        ∃ w, r1 = w ++ (':' :: r2) ∧ ∀ c ∈ w, isJsonWs c = true :=
                      ⟨r1.takeWhile isJsonWs, by
                          conv_lhs => rw [(skipWsL_decomp r1).1]
                          rw [hskip1], (skipWsL_decomp r1).2⟩
                    obtain ⟨w2, hr2d, hw2⟩ :
                        ∃ w, r2 = w ++ (preV ++ r3) ∧ ∀ c ∈ w, isJsonWs c = true :=
                      ⟨r2.takeWhile isJsonWs, by
                          conv_lhs => rw [(skipWsL_decomp r2).1]
                          rw [hr2V], (skipWsL_decomp r2).2⟩
                    obtain ⟨w3, hr3d, hw3⟩ :
                        ∃ w, r3 = w ++ (',' :: r4) ∧ ∀ c ∈ w, isJsonWs c = true :=
                      ⟨r3.takeWhile isJsonWs, by
                          conv_lhs => rw [(skipWsL_decomp r3).1]
                          rw [hskip3], (skipWsL_decomp r3).2⟩
                    obtain ⟨w4, hr4d, hw4⟩ :
                        ∃ w, r4 = w ++ (preM ++ r5) ∧ ∀ c ∈ w, isJsonWs c = true :=
                      ⟨r4.takeWhile isJsonWs, by
                          conv_lhs => rw [(skipWsL_decomp r4).1]
                          rw [hr4M], (skipWsL_decomp r4).2⟩
                    have hMbt := consumedM_head_ne_bt hCM
                    have hVbt : ∀ y, (preV ++ (w3 ++ (',' :: (w4 ++ preM)))).head? = some y →
                        y ≠ btChar := by
                      intro y hy
                      rw [head?_append_of_ne_nil hCV.1] at hy
                      exact consumedV_head_ne_bt hCV y hy
                    refine ⟨'"' :: ((key ++ ['"']) ++
                      (w1 ++ (':' :: (w2 ++ (preV ++ (w3 ++ (',' :: (w4 ++ preM)))))))),
                      ?_, ?_, ?_, ?_, ?_⟩
                    · rw [hcsk, hr1d, hr2d, hr3d, hr4d]
                      simp [List.append_assoc]
                    · simp
                    · rfl
                    · rw [show ('"' :: ((key ++ ['"']) ++
                          (w1 ++ (':' :: (w2 ++ (preV ++ (w3 ++ (',' :: (w4 ++ preM))))))))) =
                          (('"' :: (key ++ ['"'])) ++
                          (w1 ++ (':' :: (w2 ++ (preV ++ (w3 ++ (',' :: (w4 ++ preM)))))))) from
                          by simp,
                        getLast?_append_of_ne_nil (by simp),
                        getLast?_append_of_ne_nil (by simp),
                        ← List.singleton_append,
                        getLast?_append_of_ne_nil (by simp [hCV.1]),
                        getLast?_append_of_ne_nil (by simp [hCV.1]),
                        getLast?_append_of_ne_nil (by simp),
                        getLast?_append_of_ne_nil (by simp),
                        ← List.singleton_append,
                        getLast?_append_of_ne_nil (by simp [hpreMcons]),
                        getLast?_append_of_ne_nil (by simp [hpreMcons])]
                      exact hCM.2.2.1
                    · apply noNlBt_punct_cons (by decide)
                      apply noNlBt_append_of_head
                      · apply noNlBt_of_no_nl
                        intro x hx
                        simp only [List.mem_append, List.mem_singleton] at hx
                        rcases hx with hx | rfl
                        · exact ge32_ne_nl (hkeyge x hx)
                        · decide
                      · apply noNlBt_ws_append hw1
                        · apply noNlBt_punct_cons (by decide)
                          apply noNlBt_ws_append hw2
                          · apply noNlBt_append_of_head hCV.2.2.2
                            · apply noNlBt_ws_append hw3
                              · apply noNlBt_punct_cons (by decide)
                                exact noNlBt_ws_append hw4 hCM.2.2.2 hMbt
                              · exact head_cons_ne_bt (by decide)
                            · exact head_ws_append_ne_bt hw3 (head_cons_ne_bt (by decide))
                          · exact hVbt
                        · exact head_cons_ne_bt (by decide)
                      · exact head_ws_append_ne_bt hw1 (head_cons_ne_bt (by decide))
                  · exact Option.noConfusion h
                · split at h
                  · rename_i hcm hbr
                    subst hbr
                    simp only [Option.some.injEq, Prod.mk.injEq] at h
                    obtain ⟨hms, hrr⟩ := h
                    rw [← hrr]
                    obtain ⟨hcsk, hkeyge⟩ := parseStr_inv _ _ _ hkey
                    obtain ⟨preV, hr2V, hCV⟩ := ihv (skipWsL r2) v r3 hval
                    obtain ⟨w1, hr1d, hw1⟩ :
                        ∃ w, r1 = w ++ (':' :: r2) ∧ ∀ c ∈ w, isJsonWs c = true :=
                      ⟨r1.takeWhile isJsonWs, by
                          conv_lhs => rw [(skipWsL_decomp r1).1]
                          rw [hskip1], (skipWsL_decomp r1).2⟩
                    obtain ⟨w2, hr2d, hw2⟩ :
                        ∃ w, r2 = w ++ (preV ++ r3) ∧ ∀ c ∈ w, isJsonWs c = true :=
                      ⟨r2.takeWhile isJsonWs, by
                          conv_lhs => rw [(skipWsL_decomp r2).1]
                          rw [hr2V], (skipWsL_decomp r2).2⟩
                    obtain ⟨w3, hr3d, hw3⟩ :
                        ∃ w, r3 = w ++ ('}' :: r4) ∧ ∀ c ∈ w, isJsonWs c = true :=
                      ⟨r3.takeWhile isJsonWs, by
                          conv_lhs => rw [(skipWsL_decomp r3).1]
                          rw [hskip3], (skipWsL_decomp r3).2⟩
                    have hVbt : ∀ y, (preV ++ (w3 ++ ['}'])).head? = some y → y ≠ btChar := by
                      intro y hy
                      rw [head?_append_of_ne_nil hCV.1] at hy
                      exact consumedV_head_ne_bt hCV y hy
                    refine ⟨'"' :: ((key ++ ['"']) ++
                      (w1 ++ (':' :: (w2 ++ (preV ++ (w3 ++ ['}'])))))), ?_, ?_, ?_, ?_, ?_⟩
                    · rw [hcsk, hr1d, hr2d, hr3d]
                      simp [List.append_assoc]
                    · simp
                    · rfl
                    · rw [show ('"' :: ((key ++ ['"']) ++
                          (w1 ++ (':' :: (w2 ++ (preV ++ (w3 ++ ['}']))))))) =
                          (('"' :: (key ++ ['"'])) ++
                          (w1 ++ (':' :: (w2 ++ (preV ++ (w3 ++ ['}'])))))) from by simp,
                        getLast?_append_of_ne_nil (by simp),
                        getLast?_append_of_ne_nil (by simp),
                        ← List.singleton_append,
                        getLast?_append_of_ne_nil (by simp [hCV.1]),
                        getLast?_append_of_ne_nil (by simp [hCV.1]),
                        getLast?_append_of_ne_nil (by simp),
                        getLast?_append_of_ne_nil (by simp)]
                      rfl
                    · apply noNlBt_punct_cons (by decide)
                      apply noNlBt_append_of_head
                      · apply noNlBt_of_no_nl
                        intro x hx
                        simp only [List.mem_append, List.mem_singleton] at hx
                        rcases hx with hx | rfl
                        · exact ge32_ne_nl (hkeyge x hx)
                        · decide
                      · apply noNlBt_ws_append hw1
                        · apply noNlBt_punct_cons (by decide)
                          apply noNlBt_ws_append hw2
                          · apply noNlBt_append_of_head hCV.2.2.2
                            · apply noNlBt_ws_append hw3
                              · decide
                              · exact head_cons_ne_bt (by decide)
                            · exact head_ws_append_ne_bt hw3 (head_cons_ne_bt (by decide))
                          · exact hVbt
                        · exact head_cons_ne_bt (by decide)
                      · exact head_ws_append_ne_bt hw1 (head_cons_ne_bt (by decide))
                  · exact Option.noConfusion h
          · exact Option.noConfusion h
    · exact Option.noConfusion h



/-- The consumed-text invariant, for all three parsers at every fuel. -/
theorem parse_consumed : ∀ fuel : Nat,
    (∀ cs v r, parseVal fuel cs = some (v, r) → ∃ pre, cs = pre ++ r ∧ ConsumedV pre) ∧
    (∀ cs xs r, parseElems fuel cs = some (xs, r) → ∃ pre, cs = pre ++ r ∧ ConsumedE pre) ∧
    (∀ cs ms r, parseMembers fuel cs = some (ms, r) → ∃ pre, cs = pre ++ r ∧ ConsumedM pre) := by
  intro fuel
  induction fuel with
  | zero =>
    refine ⟨?_, ?_, ?_⟩
    · intro cs v r h
      simp only [parseVal] at h
      exact Option.noConfusion h
    · intro cs xs r h
      simp only [parseElems] at h
      exact Option.noConfusion h
    · intro cs ms r h
      simp only [parseMembers] at h
      exact Option.noConfusion h
  | succ fuel ih =>
    obtain ⟨ihv, ihe, ihm⟩ := ih
    exact ⟨step_val fuel ihe ihm, step_elems fuel ihv ihe, step_members fuel ihv ihm⟩

/-- A successful `jsonParse` pins down the trimmed text: `parseVal`
consumed all of it and it satisfies the consumed-text invariant. -/
theorem jsonParse_trim_facts {cs : List Char} {v : Json} (h : jsonParse cs = some v) :
    parseVal (2 * (trimJson cs).length + 4) (trimJson cs) = some (v, []) ∧
    ConsumedV (trimJson cs) := by
  unfold jsonParse at h
  split at h
  · rename_i v' hpv
    injection h with h
    subst h
    refine ⟨hpv, ?_⟩
    obtain ⟨pre, hpre, hC⟩ := (parse_consumed _).1 _ _ _ hpv
    rw [List.append_nil] at hpre
    rw [hpre]
    exact hC
  · exact Option.noConfusion h



/-- Text accepted by `jsonParse` contains no newline-backtick pair, in
particular neither a closing fence nor a full fence match. -/
theorem jsonParse_noNlBt {cs : List Char} {v : Json} (h : jsonParse cs = some v) :
    noNlBt cs = true := by
  obtain ⟨hpv, hC⟩ := jsonParse_trim_facts h
  obtain ⟨w1, w2, hdec, hw1, hw2⟩ := trim_decomp isJsonWs cs
  have hdec' : cs = w1 ++ (trimJson cs ++ w2) := hdec
  have htbt : ∀ y, (trimJson cs).head? = some y → y ≠ btChar := consumedV_head_ne_bt hC
  rw [hdec']
  apply noNlBt_ws_append hw1
  · apply noNlBt_append_of_head hC.2.2.2
    · exact noNlBt_of_no_bt fun c hc => jsonWs_ne_bt (hw2 c hc)
    · intro y hy
      exact jsonWs_ne_bt (hw2 y (head?_mem hy))
  · intro y hy
    rw [head?_append_of_ne_nil hC.1] at hy
    exact htbt y hy

/-- On text accepted by `jsonParse`, JavaScript `trim` strips exactly
what `JSON.parse` itself skips: `jsTrim` and `trimJson` agree. -/
theorem jsTrim_eq_trimJson_of_valid {cs : List Char} {v : Json}
    (h : jsonParse cs = some v) : jsTrim cs = trimJson cs := by
  obtain ⟨hpv, hC⟩ := jsonParse_trim_facts h
  obtain ⟨w1, w2, hdec, hw1, hw2⟩ := trim_decomp isJsonWs cs
  have hdec' : cs = w1 ++ (trimJson cs ++ w2) := hdec
  have hheadf : ∀ c, (trimJson cs ++ w2).head? = some c → isJsWs c = false := by
    intro c hc
    rw [head?_append_of_ne_nil hC.1] at hc
    exact (valueStart_facts (hC.2.1 c hc)).1
  have hlastf : ∀ c, (trimJson cs).getLast? = some c → isJsWs c = false := hC.2.2.1
  unfold jsTrim
  conv_lhs => rw [hdec']
  rw [dropWhile_append_of_all fun c hc => isJsWs_of_isJsonWs (hw1 c hc),
    dropWhile_eq_self_of_head hheadf,
    dropTrail_append_of_all fun c hc => isJsWs_of_isJsonWs (hw2 c hc),
    dropTrail_eq_self_of_last hlastf]

/-- `jsonParse` is unchanged by restricting to the JSON-trimmed text. -/
theorem jsonParse_trimJson_self {cs : List Char} {v : Json}
    (h : jsonParse cs = some v) : jsonParse (trimJson cs) = some v := by
  obtain ⟨hpv, hC⟩ := jsonParse_trim_facts h
  have hh : ∀ c, (trimJson cs).head? = some c → isJsonWs c = false := by
    intro c hc
    exact isJsonWs_false_of_isJsWs_false ((valueStart_facts (hC.2.1 c hc)).1)
  have hl : ∀ c, (trimJson cs).getLast? = some c → isJsonWs c = false := by
    intro c hc
    exact isJsonWs_false_of_isJsWs_false (hC.2.2.1 c hc)
  unfold jsonParse
  rw [trimJson_eq_self hh hl, hpv]



theorem leadsWith_append_self : ∀ pat rest : List Char, leadsWith pat (pat ++ rest) = true := by
  intro pat
  induction pat with
  | nil => intro rest; rfl
  | cons p ps ih =>
    intro rest
    simp [leadsWith, ih rest]

/-- Without a newline-backtick pair there is no closing fence anywhere. -/
theorem findPat_close_none : ∀ {cs : List Char}, noNlBt cs = true →
    findPat closeFence cs = none := by
  intro cs
  induction cs with
  | nil => intro _; rfl
  | cons c cs' ih =>
    intro h
    have hlw : leadsWith closeFence (c :: cs') = false := by
      cases hl : leadsWith closeFence (c :: cs') with
      | false => rfl
      | true =>
        exfalso
        rw [show closeFence = '\n' :: [btChar, btChar, btChar] from rfl] at hl
        simp only [leadsWith, Bool.and_eq_true, decide_eq_true_eq] at hl
        obtain ⟨hc, hrest⟩ := hl
        cases cs' with
        | nil => simp [leadsWith] at hrest
        | cons c2 cs2 =>
          simp only [leadsWith, Bool.and_eq_true, decide_eq_true_eq] at hrest
          exact noNlBt_pair h ⟨hc.symm, hrest.1.symm⟩
    simp [findPat, hlw, ih (noNlBt_tail h)]

/-- With no pair inside `t`, the first closing fence of `t ++ closeFence`
sits exactly at position `t.length`. -/
theorem findPat_close_append : ∀ {t : List Char}, noNlBt t = true →
    findPat closeFence (t ++ closeFence) = some t.length := by
  intro t
  induction t with
  | nil => intro _; decide
  | cons c t' ih =>
    intro h
    have hlw : leadsWith closeFence ((c :: t') ++ closeFence) = false := by
      cases hl : leadsWith closeFence ((c :: t') ++ closeFence) with
      | false => rfl
      | true =>
        exfalso
        rw [show closeFence = '\n' :: [btChar, btChar, btChar] from rfl] at hl
        rw [List.cons_append] at hl
        simp only [leadsWith, Bool.and_eq_true, decide_eq_true_eq] at hl
        obtain ⟨hc, hrest⟩ := hl
        cases t' with
        | nil => exact absurd hrest (by decide)
        | cons c2 t2 =>
          rw [List.cons_append] at hrest
          simp only [leadsWith, Bool.and_eq_true, decide_eq_true_eq] at hrest
          exact noNlBt_pair h ⟨hc.symm, hrest.1.symm⟩
    rw [List.cons_append]
    have hlw' : leadsWith closeFence (c :: (t' ++ closeFence)) = false := hlw
    simp only [findPat, hlw', Bool.false_eq_true, if_false]
    rw [ih (noNlBt_tail h)]
    simp

/-- The fence regex has no match in newline-backtick-free text. -/
theorem fenceSearch_none_of_noNlBt : ∀ {cs : List Char}, noNlBt cs = true →
    fenceSearch cs = none := by
  intro cs
  induction cs with
  | nil => intro _; rfl
  | cons c cs' ih =>
    intro h
    cases hlw : leadsWith openFence (c :: cs') with
    | true =>
      have hdrop : noNlBt ((c :: cs').drop 8) = true := by
        have hsplit := List.take_append_drop 8 (c :: cs')
        exact noNlBt_append_right (by rw [hsplit]; exact h)
      simp only [fenceSearch, hlw, if_true, findPat_close_none hdrop]
      exact ih (noNlBt_tail h)
    | false =>
      simp only [fenceSearch, hlw, Bool.false_eq_true, if_false]
      exact ih (noNlBt_tail h)

/-- The captured group of the fence regex on a wrapped text is exactly
the wrapped interior, provided the interior has no newline-backtick
pair. -/
theorem fenceSearch_wrapped {t : List Char} (h : noNlBt t = true) :
    fenceSearch (openFence ++ (t ++ closeFence)) = some t := by
  have hcons : openFence ++ (t ++ closeFence) =
      btChar :: ([btChar, btChar, 'j', 's', 'o', 'n', '\n'] ++ (t ++ closeFence)) := rfl
  rw [hcons]
  have hlw : leadsWith openFence
      (btChar :: ([btChar, btChar, 'j', 's', 'o', 'n', '\n'] ++ (t ++ closeFence))) = true :=
    leadsWith_append_self openFence (t ++ closeFence)
  rw [fenceSearch.eq_def]
  simp only [hlw, if_true]
  have hdrop : (btChar :: ([btChar, btChar, 'j', 's', 'o', 'n', '\n'] ++
      (t ++ closeFence))).drop 8 = t ++ closeFence := rfl
  rw [hdrop, findPat_close_append h]
  simp [List.take_left]



/-- C4: wrapping a valid JSON array text in a json-labelled markdown
fence does not change the decoded transaction list — `cleanAndParseJson`
strips exactly the fence and recovers the same array.  Core facts: a
valid JSON text contains no newline-backtick pair, so it can neither
close a fence prematurely nor contain one itself, and JS `trim` on it
agrees with the whitespace skipping of `JSON.parse`. -/
theorem cleanAndParseJson_fence_wrap (text : String) (a : List Json)
    (h : jsonParse text.data = some (Json.arr a)) :
    cleanAndParseJson ("```json\n" ++ text ++ "\n```") = cleanAndParseJson text ∧
    cleanAndParseJson text = Except.ok a := by
  have htrim : jsTrim text.data = trimJson text.data := jsTrim_eq_trimJson_of_valid h
  have hbt : noNlBt text.data = true := jsonParse_noNlBt h
  have hC := (jsonParse_trim_facts h).2
  have hbt_trim : noNlBt (jsTrim text.data) = true := by
    rw [htrim]
    exact hC.2.2.2
  have hfence_text : fenceSearch (jsTrim text.data) = none :=
    fenceSearch_none_of_noNlBt hbt_trim
  have hfence_text' : fenceSearch (trimJson text.data) = none := by
    rw [← htrim]
    exact hfence_text
  have hdecode_text : cleanAndParseJson text = Except.ok a := by
    unfold cleanAndParseJson cleanAndParseJsonL fenceStripped
    simp only [htrim, hfence_text', jsonParse_trimJson_self h]
  have hwdata : ("```json\n" ++ text ++ "\n```").data =
      openFence ++ (text.data ++ closeFence) := by
    rw [String.data_append, String.data_append]
    have h1 : "```json\n".data = openFence := by decide
    have h2 : "\n```".data = closeFence := by decide
    rw [h1, h2, List.append_assoc]
  have hwtrim : jsTrim (openFence ++ (text.data ++ closeFence)) =
      openFence ++ (text.data ++ closeFence) := by
    apply jsTrim_eq_self
    · intro c hc
      rw [head?_append_of_ne_nil (by decide),
        show openFence.head? = some btChar from rfl] at hc
      injection hc with hc
      rw [← hc]
      decide
    · intro c hc
      rw [getLast?_append_of_ne_nil (by simp [closeFence]),
        getLast?_append_of_ne_nil (by decide),
        show closeFence.getLast? = some btChar from by decide] at hc
      injection hc with hc
      rw [← hc]
      decide
  have hfence_wrap : fenceSearch (openFence ++ (text.data ++ closeFence)) = some text.data :=
    fenceSearch_wrapped hbt
  have hdecode_wrap :
      cleanAndParseJson ("```json\n" ++ text ++ "\n```") = Except.ok a := by
    unfold cleanAndParseJson cleanAndParseJsonL fenceStripped
    rw [hwdata, hwtrim]
    simp only [hfence_wrap, h]
  exact ⟨by rw [hdecode_wrap, hdecode_text], hdecode_text⟩

/-- Witness for `cleanAndParseJson_fence_wrap` at the empty array. -/
theorem cleanAndParseJson_fence_wrap_witness :
    cleanAndParseJson ("```json\n" ++ "[]" ++ "\n```") = cleanAndParseJson "[]" :=
  (cleanAndParseJson_fence_wrap "[]" [] (by rfl)).1


end BankOCR
